import Mathlib

/-!
Grayscale reduction kernels (`ex_code.cpp`, `MyMat.h`)

A shallow embedding of the three luminance reducers (`toGrayScale`, `toGrayScaleSSE`,
`toGrayScaleSSE_16BIT`), of the channel deinterleaver `Get4Pixels16Bit` and of the difference
oracle `imgDif`, together with the SSE intrinsics and the binary32 arithmetic they rely on.

Conventions of the embedding:
* a byte (`unsigned char`) is a `Fin 256`;
* memory is a map from byte addresses to bytes, a pointer is an address;
* `long` has `sizeofLong` bytes, a parameter of the target (4 or 8 on the usual ABIs);
* a 128-bit integer register is a map from byte index (0..15, little endian) to bytes;
* a binary32 value is held exactly, as a signed count of `2^-149` (the binary32 quantum);
  `float` expressions are evaluated operation by operation in binary32, round to nearest
  even, as the SSE unit does (no fused multiply-add, no extended precision);
* C `for` loops are run by `forLoop`, which re-tests the loop condition before every
  iteration and answers `none` when its iteration budget is used up;
* `size_t` has 64 bits; `new T[n]` is run against an allocator, a parameter that grants or
  declines each request, and the live arrays are recorded in a `Heap`.
-/

set_option maxRecDepth 100000

/-! ## Bytes, machine integers, memory -/

/-- The C type `unsigned char`. -/
abbrev uchar := Fin 256

/-- Byte-addressed memory. `byte` is the content; `writes` counts, per address, the byte
stores that hit it (bookkeeping only, never read by the program). -/
structure Mem where
  byte : Nat → uchar
  writes : Nat → Nat

/-- Store of `n` consecutive bytes `v 0, .., v (n-1)` at address `p`. -/
def Mem.storeBytes (mem : Mem) (p n : Nat) (v : Nat → uchar) : Mem where
  byte := fun a => if p ≤ a ∧ a < p + n then v (a - p) else mem.byte a
  writes := fun a => if p ≤ a ∧ a < p + n then mem.writes a + 1 else mem.writes a

/-- One-byte store `*p = v`. -/
def Mem.store (mem : Mem) (p : Nat) (v : uchar) : Mem :=
  mem.storeBytes p 1 (fun _ => v)

/-- Conversion of an unsigned value to the 32-bit C `int` (two's complement wrap). -/
def toInt (n : Nat) : Int :=
  if n % 2 ^ 32 < 2 ^ 31 then ((n % 2 ^ 32 : Nat) : Int) else ((n % 2 ^ 32 : Nat) : Int) - 2 ^ 32

/-- The bit pattern of a 32-bit `int`, as an unsigned number below `2^32`. -/
def bits32 (v : Int) : Nat := (v % 2 ^ 32).toNat

/-- Byte `k` (little endian) of an unsigned number. -/
def byteOf (v : Nat) (k : Nat) : uchar := Fin.ofNat (v / 256 ^ k)

/-- The C `for` loop `for (; cond; ) body`: the condition is tested before every iteration;
`none` when the iteration budget does not suffice or the body fails. -/
def forLoop {σ : Type} (cond : σ → Bool) (body : σ → Option σ) : Nat → σ → Option σ
  | 0, s => if cond s then none else some s
  | fuel + 1, s =>
    if cond s then
      match body s with
      | some s' => forLoop cond body fuel s'
      | none => none
    else some s

/-! ## The pixel source (EasyBMP) -/

/-- Modelled from the spec: the EasyBMP pixel type `RGBApixel` (its declaration is in
`EasyBMP.h`), four bytes stored in the order Blue, Green, Red, Alpha. -/
structure RGBApixel where
  Blue : uchar
  Green : uchar
  Red : uchar
  Alpha : uchar
deriving DecidableEq, Repr

/-- Modelled from the spec: the EasyBMP image class `BMP` (declared in `EasyBMP.h`), reduced
to its contract: `int` dimensions and the random-access read `GetPixel(col, row)`. -/
structure BMP where
  TellWidth : Nat
  TellHeight : Nat
  GetPixel : Int → Int → RGBApixel
  width_int : TellWidth < 2 ^ 31
  height_int : TellHeight < 2 ^ 31

/-! ## The strided buffer `MyMat<uchar>` -/

/-- The fields of `MyMat<T>` (`MyMat.h`); `data` is the address of the storage
(`0` for `nullptr`), `step` the number of bytes between two consecutive rows. -/
structure MyMat where
  data : Nat
  rows : Nat
  cols : Nat
  step : Nat
  channels : Nat
deriving DecidableEq, Repr

/-! ## binary32 arithmetic -/

/-- A finite binary32 value `x`, held as the integer `x * 2^149`. Infinities and NaN are
not represented: every value of the program stays below `2^128`. -/
abbrev F32 := Int

/-- Quotient `n / d` rounded to the nearest integer, ties to even. -/
def rneDiv (n d : Nat) : Nat :=
  let q := n / d
  let r := n % d
  if 2 * r < d then q else if d < 2 * r then q + 1 else q + q % 2

/-- Number of low-order bits that do not fit a 24-bit significand. -/
def dropBits : Nat → Nat → Nat
  | 0, _ => 0
  | fuel + 1, x => if x < 2 ^ 24 then 0 else dropBits fuel (x / 2) + 1

/-- Round-to-nearest-even of the nonnegative real `n / d` (in quanta) to binary32. -/
def f32_roundNat (n d : Nat) : Nat :=
  let drop := dropBits 277 (n / d)
  rneDiv n (d * 2 ^ drop) * 2 ^ drop

/-- Round-to-nearest-even of the real `n / d` (in quanta) to binary32. -/
def f32_round (n : Int) (d : Nat) : F32 :=
  if 0 ≤ n then (f32_roundNat n.natAbs d : Int) else -(f32_roundNat n.natAbs d : Int)

/-- Value of a decimal float literal `num / den`, e.g. `0.2125f` is `f32_lit 2125 10000`. -/
def f32_lit (num den : Nat) : F32 := f32_round (num * 2 ^ 149) den

/-- Conversion `int -> float`. -/
def f32_ofInt (v : Int) : F32 := f32_round (v * 2 ^ 149) 1

/-- Product `a * b` in binary32. -/
def f32_mul (a b : F32) : F32 := f32_round (a * b) (2 ^ 149)

/-- Sum `a + b` in binary32. -/
def f32_add (a b : F32) : F32 := f32_round (a + b) 1

/-- Truncation toward zero of a binary32 value to an integer. -/
def f32_trunc (a : F32) : Int := Int.tdiv a (2 ^ 149)

/-- The cast `(uchar)x` of a float: truncation, kept to the low byte. -/
def f32_to_uchar (a : F32) : uchar := Fin.ofNat (f32_trunc a % 256).toNat

/-- The cast `short(x)` of a float. -/
def f32_to_short (a : F32) : Int := Int.bmod (f32_trunc a) (2 ^ 16)

/-! ## SSE registers and intrinsics -/

/-- A 128-bit integer register `__m128i`: byte index (0..15, little endian) to byte. -/
abbrev M128i := Nat → uchar

/-- A 128-bit float register `__m128`: lane index (0..3) to binary32 value. -/
abbrev M128 := Nat → F32

/-- Unsigned value of the 16-bit lane `k` (0..7). -/
def lane16 (r : M128i) (k : Nat) : Nat := (r (2 * k)).val + 256 * (r (2 * k + 1)).val

/-- Unsigned value of the 32-bit lane `k` (0..3). -/
def lane32 (r : M128i) (k : Nat) : Nat :=
  (r (4 * k)).val + 256 * (r (4 * k + 1)).val + 65536 * (r (4 * k + 2)).val
    + 16777216 * (r (4 * k + 3)).val

/-- The eight 16-bit lanes of a register, in lane order. -/
def lanes16 (r : M128i) : List Nat := (List.range 8).map (lane16 r)

/-- The four 32-bit lanes of a register, in lane order. -/
def lanes32 (r : M128i) : List Nat := (List.range 4).map (lane32 r)

/-- Register whose 16-bit lane `k` holds the low 16 bits of `f k`. -/
def ofLanes16 (f : Nat → Nat) : M128i := fun i => byteOf (f (i / 2) % 2 ^ 16) (i % 2)

/-- Register whose 32-bit lane `k` holds the low 32 bits of `f k`. -/
def ofLanes32 (f : Nat → Nat) : M128i := fun i => byteOf (f (i / 4) % 2 ^ 32) (i % 4)

/-- Two's complement reading of a 16-bit lane. -/
def signed16 (u : Nat) : Int := if u < 2 ^ 15 then (u : Int) else (u : Int) - 2 ^ 16

/-- Two's complement reading of a 32-bit lane. -/
def signed32 (u : Nat) : Int := if u < 2 ^ 31 then (u : Int) else (u : Int) - 2 ^ 32

/-- Unsigned saturation to `bits` bits. -/
def satU (bits : Nat) (v : Int) : Nat :=
  if v < 0 then 0 else if (2 : Int) ^ bits ≤ v then 2 ^ bits - 1 else v.toNat

def _mm_setzero_si128 : M128i := fun _ => 0

def _mm_setr_epi32 (e0 e1 e2 e3 : Int) : M128i :=
  ofLanes32 fun k => bits32 (match k with | 0 => e0 | 1 => e1 | 2 => e2 | _ => e3)

def _mm_set1_epi16 (v : Int) : M128i := ofLanes16 fun _ => (v % 2 ^ 16).toNat

def _mm_set1_ps (c : F32) : M128 := fun _ => c

/-- Interleave the low eight bytes of `a` and `b`. -/
def _mm_unpacklo_epi8 (a b : M128i) : M128i :=
  fun i => if i % 2 = 0 then a (i / 2) else b (i / 2)

/-- Interleave the high eight bytes of `a` and `b`. -/
def _mm_unpackhi_epi8 (a b : M128i) : M128i :=
  fun i => if i % 2 = 0 then a (8 + i / 2) else b (8 + i / 2)

/-- Interleave the low four 16-bit words of `a` and `b`. -/
def _mm_unpacklo_epi16 (a b : M128i) : M128i :=
  fun i => if i / 2 % 2 = 0 then a (2 * (i / 4) + i % 2) else b (2 * (i / 4) + i % 2)

/-- Low quadword of `a`, then low quadword of `b`. -/
def _mm_unpacklo_epi64 (a b : M128i) : M128i :=
  fun i => if i < 8 then a i else b (i - 8)

/-- High quadword of `a`, then high quadword of `b`. -/
def _mm_unpackhi_epi64 (a b : M128i) : M128i :=
  fun i => if i < 8 then a (8 + i) else b i

/-- Lane-wise 16-bit product, low 16 bits kept. -/
def _mm_mullo_epi16 (a b : M128i) : M128i :=
  ofLanes16 fun k => lane16 a k * lane16 b k

/-- Lane-wise 16-bit sum, wrapping. -/
def _mm_add_epi16 (a b : M128i) : M128i :=
  ofLanes16 fun k => lane16 a k + lane16 b k

/-- Lane-wise logical right shift of the 16-bit lanes. -/
def _mm_srli_epi16 (a : M128i) (imm : Nat) : M128i :=
  ofLanes16 fun k => lane16 a k / 2 ^ imm

/-- Signed 16-bit lanes of `a` then `b`, narrowed to bytes with unsigned saturation. -/
def _mm_packus_epi16 (a b : M128i) : M128i :=
  fun i => Fin.ofNat (satU 8 (signed16 (lane16 (if i < 8 then a else b) (i % 8))))

/-- Signed 32-bit lanes of `a` then `b`, narrowed to 16 bits with unsigned saturation. -/
def _mm_packus_epi32 (a b : M128i) : M128i :=
  ofLanes16 fun k => satU 16 (signed32 (lane32 (if k < 4 then a else b) (k % 4)))

/-- Lane-wise conversion of signed 32-bit integers to binary32. -/
def _mm_cvtepi32_ps (a : M128i) : M128 := fun k => f32_ofInt (signed32 (lane32 a k))

def _mm_mul_ps (a b : M128) : M128 := fun k => f32_mul (a k) (b k)

def _mm_add_ps (a b : M128) : M128 := fun k => f32_add (a k) (b k)

/-- Lane-wise truncating conversion to signed 32-bit integers; a value that does not fit
gives the "integer indefinite" pattern `0x80000000`. -/
def _mm_cvttps_epi32 (a : M128) : M128i :=
  ofLanes32 fun k =>
    let t := f32_trunc (a k)
    bits32 (if -(2 : Int) ^ 31 ≤ t ∧ t < 2 ^ 31 then t else -(2 : Int) ^ 31)

/-- The low 32-bit lane, as an `int`. -/
def _mm_cvtsi128_si32 (a : M128i) : Int := signed32 (lane32 a 0)

/-- Store of the low quadword (8 bytes) of `a` at address `p`. -/
def _mm_storel_epi64 (mem : Mem) (p : Nat) (a : M128i) : Mem := mem.storeBytes p 8 a

/-- The store `*((long*)p) = v` of an `int` value `v`: `v` is sign-extended to the
`sizeofLong` bytes of a `long` and stored little endian. -/
def storeLong (sizeofLong : Nat) (mem : Mem) (p : Nat) (v : Int) : Mem :=
  mem.storeBytes p sizeofLong (byteOf (v % 2 ^ (8 * sizeofLong)).toNat)

/-! ## Weights -/

/-- The literal `0.2125f`. -/
def W_RED : F32 := f32_lit 2125 10000

/-- The literal `0.7154f`. -/
def W_GREEN : F32 := f32_lit 7154 10000

/-- The literal `0.0721f`. -/
def W_BLUE : F32 := f32_lit 721 10000

def CONST_RED : M128 := _mm_set1_ps W_RED

def CONST_GREEN : M128 := _mm_set1_ps W_GREEN

def CONST_BLUE : M128 := _mm_set1_ps W_BLUE

def CONST_RED_16_INT : M128i := _mm_set1_epi16 (f32_to_short (f32_mul W_RED (f32_ofInt 256)))

def CONST_GREEN_16_INT : M128i := _mm_set1_epi16 (f32_to_short (f32_mul W_GREEN (f32_ofInt 256)))

def CONST_BLUE_16_INT : M128i := _mm_set1_epi16 (f32_to_short (f32_mul W_BLUE (f32_ofInt 256)))

/-! ## The channel deinterleaver -/

/-- The read `*(int*)&pixel`: the four bytes Blue, Green, Red, Alpha as a little-endian
32-bit `int`. -/
def RGBApixel.asInt (p : RGBApixel) : Int :=
  toInt (p.Blue.val + 256 * p.Green.val + 65536 * p.Red.val + 16777216 * p.Alpha.val)

/-- Function `Get4Pixels16Bit`: the registers `(out_BG, out_RA)`. -/
def Get4Pixels16Bit (in_img : BMP) (in_row_idx in_col_idx : Int) : M128i × M128i :=
  let pixel0 := in_img.GetPixel in_col_idx in_row_idx
  let pixel1 := in_img.GetPixel (in_col_idx + 1) in_row_idx
  let pixel2 := in_img.GetPixel (in_col_idx + 2) in_row_idx
  let pixel3 := in_img.GetPixel (in_col_idx + 3) in_row_idx
  let p02 := _mm_setr_epi32 pixel0.asInt pixel2.asInt 0 0
  let p13 := _mm_setr_epi32 pixel1.asInt pixel3.asInt 0 0
  let p0123 := _mm_unpacklo_epi8 p02 p13
  let p23xx := _mm_unpackhi_epi64 p0123 _mm_setzero_si128
  let p0123_8bit := _mm_unpacklo_epi16 p0123 p23xx
  (_mm_unpacklo_epi8 p0123_8bit _mm_setzero_si128, _mm_unpackhi_epi8 p0123_8bit _mm_setzero_si128)

/-! ## The reducers -/

/-- State of a scan loop: loop index, write pointer, memory. -/
structure Scan (ι : Type) where
  idx : ι
  ptr : Nat
  mem : Mem

/-- The scalar formula
`(uchar)(pixel.Red * 0.2125f + pixel.Green * 0.7154f + pixel.Blue * 0.0721f)`
(lines 95, 168 and 240), evaluated in binary32, left to right. -/
def scalarLuma (pixel : RGBApixel) : uchar :=
  f32_to_uchar
    (f32_add
      (f32_add (f32_mul (f32_ofInt pixel.Red.val) W_RED) (f32_mul (f32_ofInt pixel.Green.val) W_GREEN))
      (f32_mul (f32_ofInt pixel.Blue.val) W_BLUE))

/-- Function `toGrayScale`: the memory after the call. -/
def toGrayScale (in_input : BMP) (out_mat : MyMat) (mem : Mem) : Option Mem :=
  (forLoop (fun (s : Scan Nat) => decide (s.idx < out_mat.rows))
    (fun s =>
      let row_idx := s.idx
      let row_ptr := s.ptr
      (forLoop (fun (c : Scan Nat) => decide (c.idx < out_mat.cols))
        (fun c =>
          let pixel := in_input.GetPixel (toInt c.idx) (toInt row_idx)
          some ⟨c.idx + 1, c.ptr + 1, c.mem.store c.ptr (scalarLuma pixel)⟩)
        out_mat.cols ⟨0, row_ptr, s.mem⟩).map
        fun c => ⟨row_idx + 1, row_ptr + out_mat.step, c.mem⟩)
    out_mat.rows ⟨0, out_mat.data, mem⟩).map fun s => s.mem

/-- The tail loop shared by both vector reducers (lines 165-170 and 237-242): the scalar
formula for the columns `block_cols ..` of the row. -/
def tailLoop (in_input : BMP) (out_mat : MyMat) (row_idx block_cols : Int) (elem_ptr : Nat)
    (mem : Mem) : Option (Scan Int) :=
  forLoop (fun (c : Scan Int) => decide (c.idx < toInt out_mat.cols))
    (fun c =>
      let pixel := in_input.GetPixel c.idx row_idx
      some ⟨c.idx + 1, c.ptr + 1, c.mem.store c.ptr (scalarLuma pixel)⟩)
    out_mat.cols ⟨block_cols, elem_ptr, mem⟩

/-- The block body of `toGrayScaleSSE` (lines 128-157): the register `color`. -/
def blockSSE (in_input : BMP) (row_idx col_idx : Int) : M128i :=
  let (BG, RA) := Get4Pixels16Bit in_input row_idx col_idx
  let pB := _mm_unpacklo_epi8 BG _mm_setzero_si128
  let pG := _mm_unpackhi_epi8 BG _mm_setzero_si128
  let pR := _mm_unpacklo_epi8 RA _mm_setzero_si128
  let blue := _mm_cvtepi32_ps pB
  let green := _mm_cvtepi32_ps pG
  let red := _mm_cvtepi32_ps pR
  let red := _mm_mul_ps red CONST_RED
  let green := _mm_mul_ps green CONST_GREEN
  let blue := _mm_mul_ps blue CONST_BLUE
  let red := _mm_add_ps red green
  let red := _mm_add_ps red blue
  let color := _mm_cvttps_epi32 red
  let color := _mm_packus_epi32 color _mm_setzero_si128
  _mm_packus_epi16 color _mm_setzero_si128

/-- The block loop of `toGrayScaleSSE` (lines 126-163, `block_size = 4`): each iteration
stores the `int` made of the four result bytes through a `long*`. -/
def blockLoopSSE (sizeofLong : Nat) (in_input : BMP) (out_mat : MyMat) (row_idx block_cols : Int)
    (elem_ptr : Nat) (mem : Mem) : Option (Scan Int) :=
  forLoop (fun (c : Scan Int) => decide (c.idx < block_cols))
    (fun c =>
      let color := blockSSE in_input row_idx c.idx
      some ⟨c.idx + 4, c.ptr + 4, storeLong sizeofLong c.mem c.ptr (_mm_cvtsi128_si32 color)⟩)
    out_mat.cols ⟨0, elem_ptr, mem⟩

/-- Function `toGrayScaleSSE`: the memory after the call, on a target whose `long` has
`sizeofLong` bytes. -/
def toGrayScaleSSE (sizeofLong : Nat) (in_input : BMP) (out_mat : MyMat) (mem : Mem) :
    Option Mem :=
  let block_size : Nat := 4
  let left_cols : Int := toInt (out_mat.cols % block_size)
  let block_cols : Int := toInt out_mat.cols - left_cols
  (forLoop (fun (s : Scan Int) => decide (s.idx < toInt out_mat.rows))
    (fun s =>
      let row_idx := s.idx
      let row_ptr := s.ptr
      (blockLoopSSE sizeofLong in_input out_mat row_idx block_cols row_ptr s.mem).bind fun b =>
        (tailLoop in_input out_mat row_idx block_cols b.ptr b.mem).map
          fun c => ⟨row_idx + 1, row_ptr + out_mat.step, c.mem⟩)
    out_mat.rows ⟨0, out_mat.data, mem⟩).map fun s => s.mem

/-- The block body of `toGrayScaleSSE_16BIT` (lines 202-230): the register `color`. -/
def block16 (in_input : BMP) (row_idx col_idx : Int) : M128i :=
  let (BG1, RA1) := Get4Pixels16Bit in_input row_idx col_idx
  let (BG2, RA2) := Get4Pixels16Bit in_input row_idx (col_idx + 4)
  let blue := _mm_unpacklo_epi64 BG1 BG2
  let green := _mm_unpackhi_epi64 BG1 BG2
  let red := _mm_unpacklo_epi64 RA1 RA2
  let blue := _mm_mullo_epi16 blue CONST_BLUE_16_INT
  let green := _mm_mullo_epi16 green CONST_GREEN_16_INT
  let red := _mm_mullo_epi16 red CONST_RED_16_INT
  let color := _mm_add_epi16 red green
  let color := _mm_add_epi16 color blue
  let color := _mm_srli_epi16 color 8
  _mm_packus_epi16 color _mm_setzero_si128

/-- The block loop of `toGrayScaleSSE_16BIT` (lines 200-235, `block_size = 8`). -/
def blockLoop16 (in_input : BMP) (out_mat : MyMat) (row_idx block_cols : Int)
    (elem_ptr : Nat) (mem : Mem) : Option (Scan Int) :=
  forLoop (fun (c : Scan Int) => decide (c.idx < block_cols))
    (fun c =>
      let color := block16 in_input row_idx c.idx
      some ⟨c.idx + 8, c.ptr + 8, _mm_storel_epi64 c.mem c.ptr color⟩)
    out_mat.cols ⟨0, elem_ptr, mem⟩

/-- Function `toGrayScaleSSE_16BIT`: the memory after the call. -/
def toGrayScaleSSE_16BIT (in_input : BMP) (out_mat : MyMat) (mem : Mem) : Option Mem :=
  let block_size : Int := 8
  let left_cols : Int := Int.tmod (toInt out_mat.cols) block_size
  let block_cols : Int := toInt out_mat.cols - left_cols
  (forLoop (fun (s : Scan Int) => decide (s.idx < toInt out_mat.rows))
    (fun s =>
      let row_idx := s.idx
      let row_ptr := s.ptr
      (blockLoop16 in_input out_mat row_idx block_cols row_ptr s.mem).bind fun b =>
        (tailLoop in_input out_mat row_idx block_cols b.ptr b.mem).map
          fun c => ⟨row_idx + 1, row_ptr + out_mat.step, c.mem⟩)
    out_mat.rows ⟨0, out_mat.data, mem⟩).map fun s => s.mem

/-! ## The difference oracle -/

/-- State of the scans of `imgDif`: loop index, the two read pointers, running maximum. -/
structure DifScan where
  idx : Nat
  ptr1 : Nat
  ptr2 : Nat
  res : uchar

/-- Function `imgDif`: `none` when the assertion on the shapes fails, else the value returned. -/
def imgDif (mem : Mem) (in_mat1 in_mat2 : MyMat) : Option uchar :=
  if in_mat1.rows = in_mat2.rows ∧ in_mat1.cols = in_mat2.cols ∧
      in_mat1.channels = in_mat2.channels then
    (forLoop (fun (s : DifScan) => decide (s.idx < in_mat1.rows))
      (fun s =>
        (forLoop (fun (c : DifScan) => decide (c.idx < in_mat1.cols))
          (fun c =>
            let e1 := mem.byte c.ptr1
            let e2 := mem.byte c.ptr2
            let pixel_res : uchar :=
              if e2 < e1 then Fin.ofNat (e1.val - e2.val) else Fin.ofNat (e2.val - e1.val)
            some ⟨c.idx + 1, c.ptr1 + 1, c.ptr2 + 1, if pixel_res < c.res then c.res else pixel_res⟩)
          in_mat1.cols ⟨0, s.ptr1, s.ptr2, s.res⟩).map
          fun c => ⟨s.idx + 1, s.ptr1 + in_mat1.step, s.ptr2 + in_mat2.step, c.res⟩)
      in_mat1.rows ⟨0, in_mat1.data, in_mat2.data, 0⟩).map fun s => s.res
  else none

/-! ## Initialisation of the strided buffer -/

/-- Live arrays of the free store: the address of an array made by `new T[n]` is mapped to
its number `n` of elements. -/
abbrev Heap := Nat → Option Nat

/-- The expression `new T[n]` on a 64-bit target. It throws (`none`) when `n * sizeof(T)`
does not fit in `size_t` or when the allocator `alloc` (asked for that many bytes) declines;
otherwise it returns the address and records the new array of `n` elements. -/
def newArray (sizeofT : Nat) (alloc : Heap → Nat → Option Nat) (heap : Heap) (n : Nat) :
    Option (Nat × Heap) :=
  if n * sizeofT < 2 ^ 64 then
    match alloc heap (n * sizeofT) with
    | some p => some (p, fun a => if a = p then some n else heap a)
    | none => none
  else none

/-- The default constructor `MyMat()`: the empty matrix. -/
def MyMat.empty : MyMat := ⟨0, 0, 0, 0, 0⟩

/-- Method `MyMat::clear` (lines 80-87): releases the storage when there is one. -/
def MyMat.clear (m : MyMat) (heap : Heap) : MyMat × Heap :=
  if m.data ≠ 0 then
    (⟨0, m.rows, m.cols, m.step, m.channels⟩, fun a => if a = m.data then none else heap a)
  else (m, heap)

/-- Method `MyMat::Init` (lines 66-76), `size_t` arithmetic modulo `2^64`. The result is
`ok` with the object and the free store after a normal return, `error` with the object and
the free store as they are left when `new` throws. -/
def MyMat.Init (sizeofT : Nat) (alloc : Heap → Nat → Option Nat) (m : MyMat) (heap : Heap)
    (in_rows in_cols in_channels : Nat) : Except (MyMat × Heap) (MyMat × Heap) :=
  let cleared := m.clear heap
  let rows := in_rows
  let cols := in_cols
  let channels := in_channels
  let elems_in_row := cols * channels % 2 ^ 64
  let elems_in_mat := elems_in_row * in_rows % 2 ^ 64
  match newArray sizeofT alloc cleared.2 elems_in_mat with
  | none => Except.error (⟨cleared.1.data, rows, cols, cleared.1.step, channels⟩, cleared.2)
  | some (data, heap') =>
    Except.ok (⟨data, rows, cols, elems_in_row * sizeofT % 2 ^ 64, channels⟩, heap')

/-! ## Sample data -/

/-- The all-white pixel. -/
def whitePixel : RGBApixel := ⟨255, 255, 255, 255⟩

/-- A 1x4 all-white image (1 row, 4 columns). -/
def whiteImage : BMP := ⟨4, 1, fun _ _ => whitePixel, by decide, by decide⟩

/-- A 2x9 image (2 rows, 9 columns) with a colour ramp. -/
def rampImage : BMP :=
  ⟨9, 2, fun c r => ⟨Fin.ofNat (10 * c.toNat), Fin.ofNat (20 * c.toNat + 100 * r.toNat),
    Fin.ofNat (50 * c.toNat), 255⟩, by decide, by decide⟩

/-- A 1x5 image (1 row, 5 columns) with a colour ramp. -/
def rampImage5 : BMP :=
  ⟨5, 1, fun c _ => ⟨Fin.ofNat (10 * c.toNat), Fin.ofNat (20 * c.toNat + 100),
    Fin.ofNat (50 * c.toNat), 255⟩, by decide, by decide⟩

/-- Memory holding zero everywhere, nothing written yet. -/
def zeroMem : Mem := ⟨fun _ => 0, fun _ => 0⟩

/-- A tightly packed single-channel `rows x cols` buffer at address 64, as `Init` lays it
out (`step = cols`). -/
def tightMat (rows cols : Nat) : MyMat := ⟨64, rows, cols, cols, 1⟩

/-- Memory for two 1x1 two-channel buffers, at addresses 64 and 66: all bytes are zero
except the second channel of the second buffer, which holds 5. -/
def twoChannelMem : Mem := ⟨fun a => if a = 67 then 5 else 0, fun _ => 0⟩

/-- A tightly packed 1x1 buffer with two channels at address `data`. -/
def twoChannelMat (data : Nat) : MyMat := ⟨data, 1, 1, 2, 2⟩

/-- A 1x8 all-white image (1 row, 8 columns). -/
def whiteImage8 : BMP := ⟨8, 1, fun _ _ => whitePixel, by decide, by decide⟩

/-- The 2x9 ramp image with other Alpha bytes. -/
def rampImageAlpha : BMP :=
  ⟨9, 2, fun c r => ⟨Fin.ofNat (10 * c.toNat), Fin.ofNat (20 * c.toNat + 100 * r.toNat),
    Fin.ofNat (50 * c.toNat), Fin.ofNat (7 * c.toNat + r.toNat)⟩, by decide, by decide⟩

/-- An allocator that grants every request at address 64. -/
def grantAt64 : Heap → Nat → Option Nat := fun _ _ => some 64

/-- An allocator that declines every request. -/
def declineAll : Heap → Nat → Option Nat := fun _ _ => none

/-- The free store with no live array. -/
def emptyHeap : Heap := fun _ => none

/-- The free store whose only live array has 6 elements at address 32. -/
def heapWith32 : Heap := fun a => if a = 32 then some 6 else none

/-- Memory for two 2x2 single-channel buffers at addresses 64 and 68. -/
def difMem : Mem :=
  ⟨fun a => if a = 64 then 10 else if a = 65 then 200 else if a = 66 then 7 else
    if a = 67 then 90 else if a = 68 then 13 else if a = 69 then 50 else
    if a = 70 then 7 else if a = 71 then 100 else 0, fun _ => 0⟩

/-! ## Bytes of machine integers -/

theorem byteOf_val (v k : Nat) : (byteOf v k).val = v / 256 ^ k % 256 := rfl

theorem lane16_ofLanes16 (f : Nat → Nat) (k : Nat) : lane16 (ofLanes16 f) k = f k % 2 ^ 16 := by
  have h1 : 2 * k / 2 = k := by omega
  have h2 : (2 * k + 1) / 2 = k := by omega
  have h3 : 2 * k % 2 = 0 := by omega
  have h4 : (2 * k + 1) % 2 = 1 := by omega
  simp only [lane16, ofLanes16, byteOf_val, h1, h2, h3, h4]
  norm_num
  omega

theorem lane32_ofLanes32 (f : Nat → Nat) (k : Nat) : lane32 (ofLanes32 f) k = f k % 2 ^ 32 := by
  have h1 : 4 * k / 4 = k := by omega
  have h2 : (4 * k + 1) / 4 = k := by omega
  have h3 : (4 * k + 2) / 4 = k := by omega
  have h4 : (4 * k + 3) / 4 = k := by omega
  have h5 : 4 * k % 4 = 0 := by omega
  have h6 : (4 * k + 1) % 4 = 1 := by omega
  have h7 : (4 * k + 2) % 4 = 2 := by omega
  have h8 : (4 * k + 3) % 4 = 3 := by omega
  simp only [lane32, ofLanes32, byteOf_val, h1, h2, h3, h4, h5, h6, h7, h8]
  norm_num
  omega

/-- The four bytes of `*(int*)&pixel` are the channel bytes, in the order B, G, R, A. -/
theorem asInt_bytes (p : RGBApixel) :
    byteOf (bits32 p.asInt % 4294967296) 0 = p.Blue ∧
    byteOf (bits32 p.asInt % 4294967296) 1 = p.Green ∧
    byteOf (bits32 p.asInt % 4294967296) 2 = p.Red ∧
    byteOf (bits32 p.asInt % 4294967296) 3 = p.Alpha := by
  obtain ⟨⟨b, hb⟩, ⟨g, hg⟩, ⟨r, hr⟩, ⟨a, ha⟩⟩ := p
  simp only [byteOf, bits32, RGBApixel.asInt, toInt]
  refine ⟨?_, ?_, ?_, ?_⟩ <;> apply Fin.ext <;> simp only [Fin.ofNat] <;> split <;> omega

/-- Byte `i` of the register `out_BG` of `Get4Pixels16Bit`. -/
theorem Get4Pixels16Bit_BG (img : BMP) (r c : Int) (j : Nat) (hj : j < 4) :
    (Get4Pixels16Bit img r c).1 (2 * j) = (img.GetPixel (c + j) r).Blue ∧
    (Get4Pixels16Bit img r c).1 (2 * j + 1) = 0 ∧
    (Get4Pixels16Bit img r c).1 (8 + 2 * j) = (img.GetPixel (c + j) r).Green ∧
    (Get4Pixels16Bit img r c).1 (8 + 2 * j + 1) = 0 := by
  have h0 := asInt_bytes (img.GetPixel c r)
  have h1 := asInt_bytes (img.GetPixel (c + 1) r)
  have h2 := asInt_bytes (img.GetPixel (c + 2) r)
  have h3 := asInt_bytes (img.GetPixel (c + 3) r)
  interval_cases j <;>
    simp [Get4Pixels16Bit, _mm_unpacklo_epi8, _mm_unpackhi_epi8, _mm_unpacklo_epi16,
      _mm_unpackhi_epi64, _mm_setzero_si128, _mm_setr_epi32, ofLanes32, h0, h1, h2, h3]

/-- Byte `i` of the register `out_RA` of `Get4Pixels16Bit`. -/
theorem Get4Pixels16Bit_RA (img : BMP) (r c : Int) (j : Nat) (hj : j < 4) :
    (Get4Pixels16Bit img r c).2 (2 * j) = (img.GetPixel (c + j) r).Red ∧
    (Get4Pixels16Bit img r c).2 (2 * j + 1) = 0 ∧
    (Get4Pixels16Bit img r c).2 (8 + 2 * j) = (img.GetPixel (c + j) r).Alpha ∧
    (Get4Pixels16Bit img r c).2 (8 + 2 * j + 1) = 0 := by
  have h0 := asInt_bytes (img.GetPixel c r)
  have h1 := asInt_bytes (img.GetPixel (c + 1) r)
  have h2 := asInt_bytes (img.GetPixel (c + 2) r)
  have h3 := asInt_bytes (img.GetPixel (c + 3) r)
  interval_cases j <;>
    simp [Get4Pixels16Bit, _mm_unpacklo_epi8, _mm_unpackhi_epi8, _mm_unpacklo_epi16,
      _mm_unpackhi_epi64, _mm_setzero_si128, _mm_setr_epi32, ofLanes32, h0, h1, h2, h3]

/-! ## Loops and stores -/

/-- Invariant rule for `forLoop`: an invariant kept by the body and a measure that the body
decreases, bounded by the budget, give a final state where the condition is false. -/
theorem forLoop_rule {σ : Type} (cond : σ → Bool) (body : σ → Option σ) (I : σ → Prop)
    (m : σ → Nat)
    (hstep : ∀ s, I s → cond s = true → ∃ s', body s = some s' ∧ I s' ∧ m s' < m s) :
    ∀ fuel s, I s → m s ≤ fuel →
      ∃ s', forLoop cond body fuel s = some s' ∧ I s' ∧ cond s' = false := by
  intro fuel
  induction fuel with
  | zero =>
    intro s hI hm
    cases hc : cond s with
    | false => exact ⟨s, by simp [forLoop, hc], hI, hc⟩
    | true =>
      obtain ⟨s', -, -, hlt⟩ := hstep s hI hc
      omega
  | succ n ih =>
    intro s hI hm
    cases hc : cond s with
    | false => exact ⟨s, by simp [forLoop, hc], hI, hc⟩
    | true =>
      obtain ⟨s', hb, hI', hlt⟩ := hstep s hI hc
      obtain ⟨t, ht, hIt, hct⟩ := ih s' hI' (by omega)
      exact ⟨t, by simp [forLoop, hc, hb, ht], hIt, hct⟩

theorem Mem.ext_iff' (m1 m2 : Mem) : m1 = m2 ↔ m1.byte = m2.byte ∧ m1.writes = m2.writes := by
  cases m1; cases m2; simp

/-- A store of `k` bytes right after a store of `n` bytes is one store of `n + k` bytes. -/
theorem storeBytes_snoc (mem : Mem) (p n k : Nat) (v w : Nat → uchar)
    (h : ∀ j, j < k → w j = v (n + j)) :
    (mem.storeBytes p n v).storeBytes (p + n) k w = mem.storeBytes p (n + k) v := by
  rw [Mem.ext_iff']
  constructor
  · funext a
    simp only [Mem.storeBytes]
    by_cases h1 : p + n ≤ a ∧ a < p + n + k
    · have h2 : p ≤ a ∧ a < p + (n + k) := by omega
      rw [if_pos h1, if_pos h2, h _ (by omega)]
      congr 1
      omega
    · rw [if_neg h1]
      by_cases h3 : p ≤ a ∧ a < p + n
      · rw [if_pos h3, if_pos (by omega)]
      · rw [if_neg h3, if_neg (by omega)]
  · funext a
    simp only [Mem.storeBytes]
    by_cases h1 : p + n ≤ a ∧ a < p + n + k
    · have h2 : p ≤ a ∧ a < p + (n + k) := by omega
      have h3 : ¬ (p ≤ a ∧ a < p + n) := by omega
      rw [if_pos h1, if_pos h2, if_neg h3]
    · rw [if_neg h1]
      by_cases h3 : p ≤ a ∧ a < p + n
      · rw [if_pos h3, if_pos (by omega)]
      · rw [if_neg h3, if_neg (by omega)]

theorem storeBytes_zero (mem : Mem) (p : Nat) (v : Nat → uchar) : mem.storeBytes p 0 v = mem := by
  rw [Mem.ext_iff']
  constructor <;> funext a <;> simp only [Mem.storeBytes] <;> rw [if_neg (by omega)]

theorem storeBytes_congr (mem : Mem) (p n : Nat) (v w : Nat → uchar)
    (h : ∀ j, j < n → v j = w j) : mem.storeBytes p n v = mem.storeBytes p n w := by
  rw [Mem.ext_iff']
  constructor
  · funext a
    simp only [Mem.storeBytes]
    by_cases h1 : p ≤ a ∧ a < p + n
    · rw [if_pos h1, if_pos h1, h _ (by omega)]
    · rw [if_neg h1, if_neg h1]
  · rfl

theorem storeBytes_byte_in (mem : Mem) (p n : Nat) (v : Nat → uchar) (j : Nat) (hj : j < n) :
    (mem.storeBytes p n v).byte (p + j) = v j := by
  simp only [Mem.storeBytes]
  rw [if_pos (by omega)]
  congr 1
  omega

theorem storeBytes_writes_in (mem : Mem) (p n : Nat) (v : Nat → uchar) (j : Nat) (hj : j < n) :
    (mem.storeBytes p n v).writes (p + j) = mem.writes (p + j) + 1 := by
  simp only [Mem.storeBytes]
  rw [if_pos (by omega)]

theorem storeBytes_out (mem : Mem) (p n : Nat) (v : Nat → uchar) (a : Nat)
    (ha : a < p ∨ p + n ≤ a) :
    (mem.storeBytes p n v).byte a = mem.byte a ∧ (mem.storeBytes p n v).writes a = mem.writes a := by
  simp only [Mem.storeBytes]
  rw [if_neg (by omega), if_neg (by omega)]
  exact ⟨rfl, rfl⟩

/-- Row loop, contents: a row pass that leaves the bytes below its row pointer alone and
sets the `cols` bytes of its row leaves, after `rows` passes, every row set. -/
theorem rowLoop_bytes {σ : Type} (cond : σ → Bool) (body : σ → Option σ)
    (idx ptr : σ → Nat) (memOf : σ → Mem) (V : σ → Prop) (rows cols step data : Nat)
    (exp : Nat → Nat → uchar) (hcs : cols ≤ step)
    (hcond : ∀ s, V s → cond s = decide (idx s < rows))
    (hbody : ∀ s, V s → idx s < rows → ∃ s', body s = some s' ∧ V s' ∧ idx s' = idx s + 1 ∧
      ptr s' = ptr s + step ∧ (∀ a, a < ptr s → (memOf s').byte a = (memOf s).byte a) ∧
      (∀ c, c < cols → (memOf s').byte (ptr s + c) = exp (idx s) c))
    (s0 : σ) (hV : V s0) (h0 : idx s0 = 0) (hp : ptr s0 = data) :
    ∃ s', forLoop cond body rows s0 = some s' ∧
      ∀ r c, r < rows → c < cols → (memOf s').byte (data + r * step + c) = exp r c := by
  obtain ⟨s', hs', ⟨hV', hi', hp', hb'⟩, hc'⟩ := forLoop_rule cond body
    (fun s => V s ∧ idx s ≤ rows ∧ ptr s = data + idx s * step ∧
      ∀ r c, r < idx s → c < cols → (memOf s).byte (data + r * step + c) = exp r c)
    (fun s => rows - idx s)
    (by
      intro s ⟨hVs, hle, hps, hbs⟩ hc
      rw [hcond s hVs] at hc
      have hlt : idx s < rows := by simpa using hc
      obtain ⟨s', hb, hV', hi', hp', hlow, hrow⟩ := hbody s hVs hlt
      refine ⟨s', hb, ⟨hV', by omega, ?_, ?_⟩, by show rows - idx s' < rows - idx s; omega⟩
      · rw [hp', hps, hi']; ring
      · intro r c hr hc
        by_cases hri : r < idx s
        · rw [hlow _ ?_]
          · exact hbs r c hri hc
          · have : (r + 1) * step ≤ idx s * step := Nat.mul_le_mul_right _ hri
            rw [hps]
            have e : (r + 1) * step = r * step + step := by ring
            omega
        · have hre : r = idx s := by omega
          rw [hre, ← hps]
          exact hrow c hc)
    rows s0 ⟨hV, by omega, by rw [hp, h0]; simp, by intro r c hr; omega⟩
    (by show rows - idx s0 ≤ rows; omega)
  refine ⟨s', hs', ?_⟩
  rw [hcond s' hV'] at hc'
  have : ¬ idx s' < rows := by simpa using hc'
  have : idx s' = rows := by omega
  intro r c hr hc
  exact hb' r c (by omega) hc

/-- Row loop, exact stores: when every row pass is one store of the `cols` bytes of its
row, every byte of every row holds its value and has been written exactly once. -/
theorem rowLoop_exact {σ : Type} (cond : σ → Bool) (body : σ → Option σ)
    (idx ptr : σ → Nat) (memOf : σ → Mem) (V : σ → Prop) (rows cols step data : Nat)
    (exp : Nat → Nat → uchar) (hcs : cols ≤ step)
    (hcond : ∀ s, V s → cond s = decide (idx s < rows))
    (hbody : ∀ s, V s → idx s < rows → ∃ s', body s = some s' ∧ V s' ∧ idx s' = idx s + 1 ∧
      ptr s' = ptr s + step ∧ memOf s' = (memOf s).storeBytes (ptr s) cols (exp (idx s)))
    (s0 : σ) (hV : V s0) (h0 : idx s0 = 0) (hp : ptr s0 = data) :
    ∃ s', forLoop cond body rows s0 = some s' ∧
      ∀ r c, r < rows → c < cols → (memOf s').byte (data + r * step + c) = exp r c ∧
        (memOf s').writes (data + r * step + c) = (memOf s0).writes (data + r * step + c) + 1 := by
  obtain ⟨s', hs', ⟨hV', hi', hp', hb', -⟩, hc'⟩ := forLoop_rule cond body
    (fun s => V s ∧ idx s ≤ rows ∧ ptr s = data + idx s * step ∧
      (∀ r c, r < idx s → c < cols → (memOf s).byte (data + r * step + c) = exp r c ∧
        (memOf s).writes (data + r * step + c) = (memOf s0).writes (data + r * step + c) + 1) ∧
      ∀ a, ptr s ≤ a → (memOf s).writes a = (memOf s0).writes a)
    (fun s => rows - idx s)
    (by
      intro s ⟨hVs, hle, hps, hbs, hfr⟩ hc
      rw [hcond s hVs] at hc
      have hlt : idx s < rows := by simpa using hc
      obtain ⟨s', hb, hV', hi', hp', hmem⟩ := hbody s hVs hlt
      refine ⟨s', hb, ⟨hV', by omega, ?_, ?_, ?_⟩, by show rows - idx s' < rows - idx s; omega⟩
      · rw [hp', hps, hi']; ring
      · intro r c hr hc
        by_cases hri : r < idx s
        · have hlow : data + r * step + c < ptr s := by
            have : (r + 1) * step ≤ idx s * step := Nat.mul_le_mul_right _ hri
            rw [hps]
            have e : (r + 1) * step = r * step + step := by ring
            omega
          rw [hmem, (storeBytes_out _ _ _ _ _ (Or.inl hlow)).1,
            (storeBytes_out _ _ _ _ _ (Or.inl hlow)).2]
          exact hbs r c hri hc
        · have hre : r = idx s := by omega
          rw [hre, ← hps, hmem, storeBytes_byte_in _ _ _ _ _ hc,
            storeBytes_writes_in _ _ _ _ _ hc, hfr _ (by omega)]
          exact ⟨rfl, rfl⟩
      · intro a ha
        rw [hmem, (storeBytes_out _ _ _ _ _ (Or.inr (by omega))).2]
        exact hfr a (by omega))
    rows s0 ⟨hV, by omega, by rw [hp, h0]; simp, by intro r c hr; omega, by intro a _; rfl⟩
    (by show rows - idx s0 ≤ rows; omega)
  refine ⟨s', hs', ?_⟩
  rw [hcond s' hV'] at hc'
  have : ¬ idx s' < rows := by simpa using hc'
  have : idx s' = rows := by omega
  intro r c hr hc
  exact hb' r c (by omega) hc

theorem toInt_of_lt (n : Nat) (h : n < 2 ^ 31) : toInt n = (n : Int) := by
  unfold toInt
  have : n % 2 ^ 32 = n := Nat.mod_eq_of_lt (by omega)
  rw [this, if_pos h]

/-- Form of `rowLoop_exact` for a reducer, which returns the memory of the final state. -/
theorem rowLoop_exact_map {σ : Type} (cond : σ → Bool) (body : σ → Option σ)
    (idx ptr : σ → Nat) (memOf : σ → Mem) (V : σ → Prop) (rows cols step data : Nat)
    (exp : Nat → Nat → uchar) (hcs : cols ≤ step)
    (hcond : ∀ s, V s → cond s = decide (idx s < rows))
    (hbody : ∀ s, V s → idx s < rows → ∃ s', body s = some s' ∧ V s' ∧ idx s' = idx s + 1 ∧
      ptr s' = ptr s + step ∧ memOf s' = (memOf s).storeBytes (ptr s) cols (exp (idx s)))
    (s0 : σ) (hV : V s0) (h0 : idx s0 = 0) (hp : ptr s0 = data) :
    ∃ mem', (forLoop cond body rows s0).map memOf = some mem' ∧
      ∀ r c, r < rows → c < cols → mem'.byte (data + r * step + c) = exp r c ∧
        mem'.writes (data + r * step + c) = (memOf s0).writes (data + r * step + c) + 1 := by
  obtain ⟨s', hs', h⟩ := rowLoop_exact cond body idx ptr memOf V rows cols step data exp hcs
    hcond hbody s0 hV h0 hp
  exact ⟨memOf s', by rw [hs']; rfl, h⟩

/-- Form of `rowLoop_bytes` for a reducer, which returns the memory of the final state. -/
theorem rowLoop_bytes_map {σ : Type} (cond : σ → Bool) (body : σ → Option σ)
    (idx ptr : σ → Nat) (memOf : σ → Mem) (V : σ → Prop) (rows cols step data : Nat)
    (exp : Nat → Nat → uchar) (hcs : cols ≤ step)
    (hcond : ∀ s, V s → cond s = decide (idx s < rows))
    (hbody : ∀ s, V s → idx s < rows → ∃ s', body s = some s' ∧ V s' ∧ idx s' = idx s + 1 ∧
      ptr s' = ptr s + step ∧ (∀ a, a < ptr s → (memOf s').byte a = (memOf s).byte a) ∧
      (∀ c, c < cols → (memOf s').byte (ptr s + c) = exp (idx s) c))
    (s0 : σ) (hV : V s0) (h0 : idx s0 = 0) (hp : ptr s0 = data) :
    ∃ mem', (forLoop cond body rows s0).map memOf = some mem' ∧
      ∀ r c, r < rows → c < cols → mem'.byte (data + r * step + c) = exp r c := by
  obtain ⟨s', hs', h⟩ := rowLoop_bytes cond body idx ptr memOf V rows cols step data exp hcs
    hcond hbody s0 hV h0 hp
  exact ⟨memOf s', by rw [hs']; rfl, h⟩

/-- The column loop of `toGrayScale` is one store of the `cols` scalar bytes of the row. -/
theorem scalarCols_exact (img : BMP) (cols row : Nat) (p : Nat) (mem : Mem) :
    ∃ s', forLoop (fun (c : Scan Nat) => decide (c.idx < cols))
        (fun c => some ⟨c.idx + 1, c.ptr + 1,
          c.mem.store c.ptr (scalarLuma (img.GetPixel (toInt c.idx) (toInt row)))⟩)
        cols ⟨0, p, mem⟩ = some s' ∧
      s'.mem = mem.storeBytes p cols
        (fun j => scalarLuma (img.GetPixel (toInt j) (toInt row))) := by
  obtain ⟨s', hs', ⟨hle, hp, hm⟩, hc⟩ := forLoop_rule
    (fun (c : Scan Nat) => decide (c.idx < cols))
    (fun c => some ⟨c.idx + 1, c.ptr + 1,
          c.mem.store c.ptr (scalarLuma (img.GetPixel (toInt c.idx) (toInt row)))⟩)
    (fun c => c.idx ≤ cols ∧ c.ptr = p + c.idx ∧
      c.mem = mem.storeBytes p c.idx (fun j => scalarLuma (img.GetPixel (toInt j) (toInt row))))
    (fun c => cols - c.idx)
    (by
      intro c ⟨hle, hp, hm⟩ hc
      have hlt : c.idx < cols := by simpa using hc
      refine ⟨_, rfl, ⟨by show c.idx + 1 ≤ cols; omega, by show c.ptr + 1 = p + (c.idx + 1); omega,
        ?_⟩, by show cols - (c.idx + 1) < cols - c.idx; omega⟩
      show c.mem.store c.ptr _ = _
      rw [hm, hp]
      refine storeBytes_snoc _ _ _ _ _ _ ?_
      intro j hj
      obtain rfl : j = 0 := by omega
      rfl)
    cols ⟨0, p, mem⟩ ⟨Nat.zero_le _, rfl, (storeBytes_zero _ _ _).symm⟩ (by show cols - 0 ≤ cols; omega)
  refine ⟨s', hs', ?_⟩
  have h1 : ¬ s'.idx < cols := by simpa using hc
  have h2 : s'.idx = cols := by omega
  rw [hm, h2]

/-- Function `toGrayScale`, every output byte: the call returns, the byte at offset
`row * step + col` is the scalar formula of pixel `(col, row)`, written exactly once. -/
theorem toGrayScale_exact (img : BMP) (out : MyMat) (mem : Mem) (hcs : out.cols ≤ out.step) :
    ∃ mem', toGrayScale img out mem = some mem' ∧
      ∀ r c, r < out.rows → c < out.cols →
        mem'.byte (out.data + r * out.step + c) = scalarLuma (img.GetPixel (toInt c) (toInt r)) ∧
        mem'.writes (out.data + r * out.step + c) = mem.writes (out.data + r * out.step + c) + 1 := by
  unfold toGrayScale
  obtain ⟨s', hs', h⟩ := rowLoop_exact (fun (s : Scan Nat) => decide (s.idx < out.rows))
    (fun s =>
      (forLoop (fun (c : Scan Nat) => decide (c.idx < out.cols))
        (fun c => some ⟨c.idx + 1, c.ptr + 1,
          c.mem.store c.ptr (scalarLuma (img.GetPixel (toInt c.idx) (toInt s.idx)))⟩)
        out.cols ⟨0, s.ptr, s.mem⟩).map
        fun c => ⟨s.idx + 1, s.ptr + out.step, c.mem⟩)
    (fun s => s.idx) (fun s => s.ptr) (fun s => s.mem) (fun _ => True)
    out.rows out.cols out.step out.data
    (fun r c => scalarLuma (img.GetPixel (toInt c) (toInt r))) hcs
    (fun _ _ => rfl)
    (by
      intro s _ hlt
      obtain ⟨c', hc', hm⟩ := scalarCols_exact img out.cols s.idx s.ptr s.mem
      refine ⟨⟨s.idx + 1, s.ptr + out.step, c'.mem⟩, ?_, trivial, rfl, rfl, hm⟩
      beta_reduce
      rw [hc']
      rfl)
    ⟨0, out.data, mem⟩ trivial rfl rfl
  exact ⟨s'.mem, by rw [hs']; rfl, h⟩

/-! ## binary32 rounding: error bounds -/

theorem dropBits_le (fuel : Nat) : ∀ x K, x < 2 ^ (24 + K) → dropBits fuel x ≤ K := by
  induction fuel with
  | zero => intro x K _; simp [dropBits]
  | succ n ih =>
    intro x K hx
    unfold dropBits
    split
    · omega
    · rename_i h
      cases K with
      | zero => simp at hx; omega
      | succ k =>
        have h2 : x / 2 < 2 ^ (24 + k) := by
          have e : 2 ^ (24 + (k + 1)) = 2 * 2 ^ (24 + k) := by rw [← Nat.add_assoc, pow_succ]; ring
          rw [e] at hx
          omega
        have := ih (x / 2) k h2
        omega

/-- The rounded quotient is within half a unit of the exact one. -/
theorem rneDiv_err (n D : Nat) (hD : 0 < D) :
    2 * (rneDiv n D * D) ≤ 2 * n + D ∧ 2 * n ≤ 2 * (rneDiv n D * D) + D := by
  have h1 := Nat.div_add_mod n D
  have h2 := Nat.mod_lt n hD
  have e1 : (n / D + 1) * D = D * (n / D) + D := by ring
  have e2 : n / D * D = D * (n / D) := by ring
  unfold rneDiv
  simp only []
  split
  · rw [e2]; omega
  · split
    · rw [e1]; omega
    · rcases Nat.mod_two_eq_zero_or_one (n / D) with h | h
      · rw [h, Nat.add_zero, e2]; omega
      · rw [h, e1]; omega

/-- Rounding error of `f32_roundNat`: a value below `2^(24+K)` quanta moves by at most
`2^K / 2` quanta. -/
theorem f32_roundNat_err (n d K : Nat) (hd : 0 < d) (h : n < d * 2 ^ (24 + K)) :
    2 * (f32_roundNat n d * d) ≤ 2 * n + d * 2 ^ K ∧
    2 * n ≤ 2 * (f32_roundNat n d * d) + d * 2 ^ K := by
  have hq : n / d < 2 ^ (24 + K) := Nat.div_lt_of_lt_mul h
  have hdrop := dropBits_le 277 (n / d) K hq
  unfold f32_roundNat
  simp only []
  generalize dropBits 277 (n / d) = drop at hdrop
  have hpos : 0 < d * 2 ^ drop := Nat.mul_pos hd (by positivity)
  obtain ⟨h1, h2⟩ := rneDiv_err n (d * 2 ^ drop) hpos
  have hle : d * 2 ^ drop ≤ d * 2 ^ K :=
    Nat.mul_le_mul_left _ (Nat.pow_le_pow_right (by omega) hdrop)
  have e : rneDiv n (d * 2 ^ drop) * 2 ^ drop * d = rneDiv n (d * 2 ^ drop) * (d * 2 ^ drop) := by
    ring
  rw [e]
  omega

theorem f32_round_ofNat (n d : Nat) : f32_round (n : Int) d = (f32_roundNat n d : Int) := by
  unfold f32_round
  rw [if_pos (Int.natCast_nonneg n), Int.natAbs_ofNat]

/-- Exact rounding: a whole number of quanta below `2^24` is a binary32 value. -/
theorem f32_roundNat_small (n : Nat) (h : n < 2 ^ 24) : f32_roundNat n 1 = n := by
  have hdrop := dropBits_le 277 (n / 1) 0 (by simpa using h)
  unfold f32_roundNat
  simp only []
  have : dropBits 277 (n / 1) = 0 := by omega
  rw [this]
  simp [rneDiv, Nat.mod_one]

/-- Exact conversion of a small natural number: a small integer times `2^149` quanta. -/
theorem f32_roundNat_shift (v : Nat) (h : v < 2 ^ 24) :
    f32_roundNat (v * 2 ^ 149) 1 = v * 2 ^ 149 := by
  have hq : v * 2 ^ 149 / 1 < 2 ^ (24 + 149) := by
    rw [Nat.div_one, pow_add]
    exact Nat.mul_lt_mul_of_pos_right h (by positivity)
  have hdrop := dropBits_le 277 (v * 2 ^ 149 / 1) 149 hq
  unfold f32_roundNat
  simp only []
  generalize dropBits 277 (v * 2 ^ 149 / 1) = drop at hdrop
  obtain ⟨k, hk⟩ : ∃ k, 149 = drop + k := ⟨149 - drop, by omega⟩
  have e : v * 2 ^ 149 = (v * 2 ^ k) * (1 * 2 ^ drop) := by rw [hk, pow_add]; ring
  have hpos : 0 < 1 * 2 ^ drop := by positivity
  rw [e]
  unfold rneDiv
  simp only [Nat.mul_mod_left, Nat.mul_div_cancel _ hpos]
  simp

theorem f32_ofInt_nat (v : Nat) (h : v < 2 ^ 24) : f32_ofInt (v : Int) = (v : Int) * 2 ^ 149 := by
  unfold f32_ofInt
  have : ((v : Int) * 2 ^ 149) = ((v * 2 ^ 149 : Nat) : Int) := by push_cast; ring
  rw [this, f32_round_ofNat, f32_roundNat_shift v h]

/-! ## The weights and the scalar sum -/

theorem W_RED_eq : W_RED = ((7130317 * 2 ^ 124 : Nat) : Int) := by decide

theorem W_GREEN_eq : W_GREEN = ((3000605 * 2 ^ 127 : Nat) : Int) := by decide

theorem W_BLUE_eq : W_BLUE = ((4838549 * 2 ^ 123 : Nat) : Int) := by decide

theorem f32_mul_nat (a b : Nat) :
    f32_mul (a : Int) (b : Int) = (f32_roundNat (a * b) (2 ^ 149) : Int) := by
  unfold f32_mul
  rw [← Int.natCast_mul, f32_round_ofNat]

theorem f32_add_nat (a b : Nat) : f32_add (a : Int) (b : Int) = (f32_roundNat (a + b) 1 : Int) := by
  unfold f32_add
  rw [← Int.natCast_add, f32_round_ofNat]

/-- The binary32 sum of the scalar formula stays within `2^-14` of the exact weighted sum
`(2125 R + 7154 G + 721 B) / 10000`; in particular it is nonnegative and below 256. -/
theorem luma_bounds (R G B : Nat) (hR : R < 256) (hG : G < 256) (hB : B < 256) :
    ∃ L : Nat,
      f32_add (f32_add (f32_mul (f32_ofInt R) W_RED) (f32_mul (f32_ofInt G) W_GREEN))
        (f32_mul (f32_ofInt B) W_BLUE) = (L : Int) ∧
      (2125 * R + 7154 * G + 721 * B) * 2 ^ 149 ≤ 10000 * L + 10000 * 2 ^ 135 ∧
      10000 * L ≤ (2125 * R + 7154 * G + 721 * B) * 2 ^ 149 + 10000 * 2 ^ 135 := by
  rw [f32_ofInt_nat R (by omega), f32_ofInt_nat G (by omega), f32_ofInt_nat B (by omega),
    W_RED_eq, W_GREEN_eq, W_BLUE_eq]
  have cR : ((R : Int) * 2 ^ 149) = ((R * 2 ^ 149 : Nat) : Int) := by push_cast; ring
  have cG : ((G : Int) * 2 ^ 149) = ((G * 2 ^ 149 : Nat) : Int) := by push_cast; ring
  have cB : ((B : Int) * 2 ^ 149) = ((B * 2 ^ 149 : Nat) : Int) := by push_cast; ring
  rw [cR, cG, cB, f32_mul_nat, f32_mul_nat, f32_mul_nat, f32_add_nat, f32_add_nat]
  refine ⟨_, rfl, ?_⟩
  have ha := f32_roundNat_err (R * 2 ^ 149 * (7130317 * 2 ^ 124)) (2 ^ 149) 133 (by positivity)
    (by norm_num; omega)
  have hb := f32_roundNat_err (G * 2 ^ 149 * (3000605 * 2 ^ 127)) (2 ^ 149) 133 (by positivity)
    (by norm_num; omega)
  have hc := f32_roundNat_err (B * 2 ^ 149 * (4838549 * 2 ^ 123)) (2 ^ 149) 133 (by positivity)
    (by norm_num; omega)
  generalize f32_roundNat (R * 2 ^ 149 * (7130317 * 2 ^ 124)) (2 ^ 149) = a at ha ⊢
  generalize f32_roundNat (G * 2 ^ 149 * (3000605 * 2 ^ 127)) (2 ^ 149) = b at hb ⊢
  generalize f32_roundNat (B * 2 ^ 149 * (4838549 * 2 ^ 123)) (2 ^ 149) = c at hc ⊢
  norm_num at ha hb hc
  have hs := f32_roundNat_err (a + b) 1 133 (by omega) (by norm_num; omega)
  generalize f32_roundNat (a + b) 1 = s at hs ⊢
  norm_num at hs
  have hl := f32_roundNat_err (s + c) 1 133 (by omega) (by norm_num; omega)
  generalize f32_roundNat (s + c) 1 = l at hl ⊢
  norm_num at hl
  norm_num
  omega

/-! ## The fixed-point block -/

theorem CONST_RED_16_INT_lane (k : Nat) : lane16 CONST_RED_16_INT k = 54 := by
  have h : f32_to_short (f32_mul W_RED (f32_ofInt 256)) = 54 := by decide
  rw [CONST_RED_16_INT, _mm_set1_epi16, lane16_ofLanes16, h]
  rfl

theorem CONST_GREEN_16_INT_lane (k : Nat) : lane16 CONST_GREEN_16_INT k = 183 := by
  have h : f32_to_short (f32_mul W_GREEN (f32_ofInt 256)) = 183 := by decide
  rw [CONST_GREEN_16_INT, _mm_set1_epi16, lane16_ofLanes16, h]
  rfl

theorem CONST_BLUE_16_INT_lane (k : Nat) : lane16 CONST_BLUE_16_INT k = 18 := by
  have h : f32_to_short (f32_mul W_BLUE (f32_ofInt 256)) = 18 := by decide
  rw [CONST_BLUE_16_INT, _mm_set1_epi16, lane16_ofLanes16, h]
  rfl

/-- The 16-bit lanes of the three channel registers of the fixed-point block are the
channel bytes of the eight pixels, in pixel order. -/
theorem block16_channels (img : BMP) (r c : Int) (k : Nat) (hk : k < 8) :
    lane16 (_mm_unpacklo_epi64 (Get4Pixels16Bit img r c).1 (Get4Pixels16Bit img r (c + 4)).1) k
      = (img.GetPixel (c + k) r).Blue.val ∧
    lane16 (_mm_unpackhi_epi64 (Get4Pixels16Bit img r c).1 (Get4Pixels16Bit img r (c + 4)).1) k
      = (img.GetPixel (c + k) r).Green.val ∧
    lane16 (_mm_unpacklo_epi64 (Get4Pixels16Bit img r c).2 (Get4Pixels16Bit img r (c + 4)).2) k
      = (img.GetPixel (c + k) r).Red.val := by
  have b0 := Get4Pixels16Bit_BG img r c 0 (by omega)
  have b1 := Get4Pixels16Bit_BG img r c 1 (by omega)
  have b2 := Get4Pixels16Bit_BG img r c 2 (by omega)
  have b3 := Get4Pixels16Bit_BG img r c 3 (by omega)
  have b4 := Get4Pixels16Bit_BG img r (c + 4) 0 (by omega)
  have b5 := Get4Pixels16Bit_BG img r (c + 4) 1 (by omega)
  have b6 := Get4Pixels16Bit_BG img r (c + 4) 2 (by omega)
  have b7 := Get4Pixels16Bit_BG img r (c + 4) 3 (by omega)
  have a0 := Get4Pixels16Bit_RA img r c 0 (by omega)
  have a1 := Get4Pixels16Bit_RA img r c 1 (by omega)
  have a2 := Get4Pixels16Bit_RA img r c 2 (by omega)
  have a3 := Get4Pixels16Bit_RA img r c 3 (by omega)
  have a4 := Get4Pixels16Bit_RA img r (c + 4) 0 (by omega)
  have a5 := Get4Pixels16Bit_RA img r (c + 4) 1 (by omega)
  have a6 := Get4Pixels16Bit_RA img r (c + 4) 2 (by omega)
  have a7 := Get4Pixels16Bit_RA img r (c + 4) 3 (by omega)
  norm_num [add_assoc] at b0 b1 b2 b3 b4 b5 b6 b7 a0 a1 a2 a3 a4 a5 a6 a7
  interval_cases k <;>
    simp [lane16, _mm_unpacklo_epi64, _mm_unpackhi_epi64, b0, b1, b2, b3, b4, b5, b6, b7,
      a0, a1, a2, a3, a4, a5, a6, a7]

/-- Byte `j` of the fixed-point block: `(54 R + 183 G + 18 B) / 256` of pixel `c + j`. -/
theorem block16_byte (img : BMP) (r c : Int) (j : Nat) (hj : j < 8) :
    ((block16 img r c) j).val =
      (54 * (img.GetPixel (c + j) r).Red.val + 183 * (img.GetPixel (c + j) r).Green.val
        + 18 * (img.GetPixel (c + j) r).Blue.val) / 256 := by
  obtain ⟨hb, hg, hr⟩ := block16_channels img r c j hj
  have hR := (img.GetPixel (c + j) r).Red.isLt
  have hG := (img.GetPixel (c + j) r).Green.isLt
  have hB := (img.GetPixel (c + j) r).Blue.isLt
  have hj8 : j % 8 = j := Nat.mod_eq_of_lt hj
  simp only [block16, _mm_packus_epi16, if_pos hj, hj8, _mm_srli_epi16, _mm_add_epi16,
    _mm_mullo_epi16, lane16_ofLanes16, hb, hg, hr, CONST_RED_16_INT_lane,
    CONST_GREEN_16_INT_lane, CONST_BLUE_16_INT_lane]
  generalize (img.GetPixel (c + j) r).Red.val = R at hR
  generalize (img.GetPixel (c + j) r).Green.val = G at hG
  generalize (img.GetPixel (c + j) r).Blue.val = B at hB
  have e1 : R * 54 % 2 ^ 16 = R * 54 := Nat.mod_eq_of_lt (by omega)
  have e2 : G * 183 % 2 ^ 16 = G * 183 := Nat.mod_eq_of_lt (by omega)
  have e3 : B * 18 % 2 ^ 16 = B * 18 := Nat.mod_eq_of_lt (by omega)
  have e4 : (R * 54 + G * 183) % 2 ^ 16 = R * 54 + G * 183 := Nat.mod_eq_of_lt (by omega)
  have e5 : (R * 54 + G * 183 + B * 18) % 2 ^ 16 = R * 54 + G * 183 + B * 18 :=
    Nat.mod_eq_of_lt (by omega)
  have e6 : (R * 54 + G * 183 + B * 18) / 2 ^ 8 % 2 ^ 16 = (R * 54 + G * 183 + B * 18) / 2 ^ 8 :=
    Nat.mod_eq_of_lt (by omega)
  rw [e1, e2, e3, e4, e5, e6]
  have hx : (R * 54 + G * 183 + B * 18) / 2 ^ 8 < 255 := by omega
  have e7 : (54 * R + 183 * G + 18 * B) / 256 = (R * 54 + G * 183 + B * 18) / 2 ^ 8 := by
    congr 1; ring
  rw [e7]
  generalize (R * 54 + G * 183 + B * 18) / 2 ^ 8 = x at hx
  have hs : signed16 x = (x : Int) := by unfold signed16; rw [if_pos (by omega)]
  have hu : satU 8 (x : Int) = x := by
    unfold satU
    rw [if_neg (by omega), if_neg (by norm_num; omega)]
    simp
  rw [hs, hu]
  exact Nat.mod_eq_of_lt (by omega)

/-! ## The scalar byte and the float block -/

theorem f32_trunc_nat (L : Nat) : f32_trunc (L : Int) = ((L / 2 ^ 149 : Nat) : Int) := by
  unfold f32_trunc
  rw [Int.ofNat_tdiv]
  norm_num

/-- The scalar byte: the truncation `t` of the binary32 sum is below 256, so the cast to
`uchar` keeps it, and `t` is the floor of the exact sum `E / 10000`, or one less when that
sum is a whole number. -/
theorem scalarLuma_spec (p : RGBApixel) :
    ∃ t : Nat, t < 256 ∧
      f32_trunc (f32_add (f32_add (f32_mul (f32_ofInt p.Red.val) W_RED)
        (f32_mul (f32_ofInt p.Green.val) W_GREEN)) (f32_mul (f32_ofInt p.Blue.val) W_BLUE))
        = (t : Int) ∧
      (scalarLuma p).val = t ∧
      10000 * t ≤ 2125 * p.Red.val + 7154 * p.Green.val + 721 * p.Blue.val ∧
      2125 * p.Red.val + 7154 * p.Green.val + 721 * p.Blue.val ≤ 10000 * (t + 1) := by
  have hR := p.Red.isLt
  have hG := p.Green.isLt
  have hB := p.Blue.isLt
  obtain ⟨L, hL, h1, h2⟩ := luma_bounds p.Red.val p.Green.val p.Blue.val hR hG hB
  have hL' : f32_add (f32_add (f32_mul (f32_ofInt ((p.Red.val : Nat) : Int)) W_RED)
        (f32_mul (f32_ofInt ((p.Green.val : Nat) : Int)) W_GREEN))
        (f32_mul (f32_ofInt ((p.Blue.val : Nat) : Int)) W_BLUE) = (L : Int) := hL
  norm_num at h1 h2
  have ht : L / 2 ^ 149 < 256 := by norm_num; omega
  refine ⟨L / 2 ^ 149, ht, ?_, ?_, ?_, ?_⟩
  · rw [hL', f32_trunc_nat]
  · unfold scalarLuma f32_to_uchar
    rw [hL', f32_trunc_nat]
    have e : ((L / 2 ^ 149 : Nat) : Int) % 256 = ((L / 2 ^ 149 : Nat) : Int) :=
      Int.emod_eq_of_lt (by omega) (by omega)
    rw [e, Int.toNat_ofNat]
    exact Nat.mod_eq_of_lt (by omega)
  · norm_num; omega
  · norm_num; omega

/-- The 32-bit lanes of the three widened registers of the float block are the channel
bytes of the four pixels, in pixel order. -/
theorem blockSSE_channels (img : BMP) (r c : Int) (k : Nat) (hk : k < 4) :
    lane32 (_mm_unpacklo_epi8 (Get4Pixels16Bit img r c).1 _mm_setzero_si128) k
      = (img.GetPixel (c + k) r).Blue.val ∧
    lane32 (_mm_unpackhi_epi8 (Get4Pixels16Bit img r c).1 _mm_setzero_si128) k
      = (img.GetPixel (c + k) r).Green.val ∧
    lane32 (_mm_unpacklo_epi8 (Get4Pixels16Bit img r c).2 _mm_setzero_si128) k
      = (img.GetPixel (c + k) r).Red.val := by
  have b0 := Get4Pixels16Bit_BG img r c 0 (by omega)
  have b1 := Get4Pixels16Bit_BG img r c 1 (by omega)
  have b2 := Get4Pixels16Bit_BG img r c 2 (by omega)
  have b3 := Get4Pixels16Bit_BG img r c 3 (by omega)
  have a0 := Get4Pixels16Bit_RA img r c 0 (by omega)
  have a1 := Get4Pixels16Bit_RA img r c 1 (by omega)
  have a2 := Get4Pixels16Bit_RA img r c 2 (by omega)
  have a3 := Get4Pixels16Bit_RA img r c 3 (by omega)
  norm_num at b0 b1 b2 b3 a0 a1 a2 a3
  interval_cases k <;>
    simp [lane32, _mm_unpacklo_epi8, _mm_unpackhi_epi8, _mm_setzero_si128, b0, b1, b2, b3,
      a0, a1, a2, a3]

/-- Byte `j` of the float block is the scalar byte of pixel `c + j`. -/
theorem blockSSE_byte (img : BMP) (r c : Int) (j : Nat) (hj : j < 4) :
    (blockSSE img r c) j = scalarLuma (img.GetPixel (c + j) r) := by
  obtain ⟨hb, hg, hr⟩ := blockSSE_channels img r c j hj
  obtain ⟨t, ht, hsum, hs, -, -⟩ := scalarLuma_spec (img.GetPixel (c + j) r)
  have hR := (img.GetPixel (c + j) r).Red.isLt
  have hG := (img.GetPixel (c + j) r).Green.isLt
  have hB := (img.GetPixel (c + j) r).Blue.isLt
  have sR : signed32 (img.GetPixel (c + j) r).Red.val = ((img.GetPixel (c + j) r).Red.val : Int) := by
    unfold signed32; rw [if_pos (by omega)]
  have sG : signed32 (img.GetPixel (c + j) r).Green.val = ((img.GetPixel (c + j) r).Green.val : Int) := by
    unfold signed32; rw [if_pos (by omega)]
  have sB : signed32 (img.GetPixel (c + j) r).Blue.val = ((img.GetPixel (c + j) r).Blue.val : Int) := by
    unfold signed32; rw [if_pos (by omega)]
  have hj8 : j < 8 := by omega
  have hj8' : j % 8 = j := Nat.mod_eq_of_lt hj8
  have hj4 : j % 4 = j := Nat.mod_eq_of_lt hj
  apply Fin.ext
  rw [hs]
  simp only [blockSSE, _mm_packus_epi16, if_pos hj8, hj8', _mm_packus_epi32, lane16_ofLanes16,
    if_pos hj, hj4, _mm_cvttps_epi32, lane32_ofLanes32, _mm_add_ps, _mm_mul_ps, _mm_cvtepi32_ps,
    CONST_RED, CONST_GREEN, CONST_BLUE, _mm_set1_ps, hb, hg, hr, sR, sG, sB, hsum]
  have hrange : -(2 : Int) ^ 31 ≤ (t : Int) ∧ (t : Int) < 2 ^ 31 := by constructor <;> omega
  rw [if_pos hrange]
  have e1 : bits32 (t : Int) % 2 ^ 32 = t := by
    unfold bits32
    have : (t : Int) % 2 ^ 32 = (t : Int) := Int.emod_eq_of_lt (by omega) (by omega)
    rw [this, Int.toNat_ofNat]
    exact Nat.mod_eq_of_lt (by omega)
  rw [e1]
  have e2 : signed32 t = (t : Int) := by unfold signed32; rw [if_pos (by omega)]
  have e3 : satU 16 (t : Int) = t := by
    unfold satU
    rw [if_neg (by omega), if_neg (by norm_num; omega)]
    simp
  have e4 : t % 2 ^ 16 = t := Nat.mod_eq_of_lt (by omega)
  have e5 : signed16 t = (t : Int) := by unfold signed16; rw [if_pos (by omega)]
  have e6 : satU 8 (t : Int) = t := by
    unfold satU
    rw [if_neg (by omega), if_neg (by norm_num; omega)]
    simp
  rw [e2, e3, e4, e5, e6]
  exact Nat.mod_eq_of_lt ht

/-! ## The loops of the vector reducers -/

/-- The tail loop is one store of the scalar bytes of the columns `n .. cols - 1`. -/
theorem tailLoop_exact (img : BMP) (out : MyMat) (row : Int) (n : Nat) (hn : n ≤ out.cols)
    (hc : out.cols < 2 ^ 31) (p : Nat) (mem : Mem) :
    ∃ s', tailLoop img out row (n : Int) p mem = some s' ∧
      s'.mem = mem.storeBytes p (out.cols - n)
        (fun j => scalarLuma (img.GetPixel ((n + j : Nat) : Int) row)) := by
  unfold tailLoop
  rw [toInt_of_lt _ hc]
  obtain ⟨s', hs', ⟨k, hk, hle, -, hm⟩, hcond⟩ := forLoop_rule
    (fun (c : Scan Int) => decide (c.idx < (out.cols : Int)))
    (fun c => some ⟨c.idx + 1, c.ptr + 1,
      c.mem.store c.ptr (scalarLuma (img.GetPixel c.idx row))⟩)
    (fun c => ∃ k : Nat, c.idx = ((n + k : Nat) : Int) ∧ n + k ≤ out.cols ∧ c.ptr = p + k ∧
      c.mem = mem.storeBytes p k (fun j => scalarLuma (img.GetPixel ((n + j : Nat) : Int) row)))
    (fun c => ((out.cols : Int) - c.idx).toNat)
    (by
      intro c ⟨k, hk, hle, hp, hm⟩ hcond
      have hlt : c.idx < (out.cols : Int) := by simpa using hcond
      refine ⟨_, rfl, ⟨k + 1, ?_, ?_, ?_, ?_⟩, ?_⟩
      · show c.idx + 1 = _
        rw [hk]; push_cast; ring
      · omega
      · show c.ptr + 1 = _
        omega
      · show c.mem.store c.ptr _ = _
        rw [hm, hp, hk]
        refine storeBytes_snoc _ _ _ _ _ _ ?_
        intro j hj
        obtain rfl : j = 0 := by omega
        rfl
      · show ((out.cols : Int) - (c.idx + 1)).toNat < ((out.cols : Int) - c.idx).toNat
        omega)
    out.cols ⟨(n : Int), p, mem⟩ ⟨0, rfl, by omega, rfl, (storeBytes_zero _ _ _).symm⟩
    (by show ((out.cols : Int) - (n : Int)).toNat ≤ out.cols; omega)
  refine ⟨s', hs', ?_⟩
  have h1 : ¬ s'.idx < (out.cols : Int) := by simpa using hcond
  have h2 : k = out.cols - n := by omega
  rw [hm, h2]

/-- A block loop whose body is one store of `K` bytes is one store of the bytes of all
blocks. -/
theorem blockLoop_exact (K : Nat) (hK : 0 < K) (bc fuel : Nat) (hbc : bc % K = 0)
    (hf : bc ≤ fuel) (body : Scan Int → Option (Scan Int)) (blk : Int → Nat → uchar)
    (hbody : ∀ c : Scan Int, body c =
      some ⟨c.idx + (K : Int), c.ptr + K, c.mem.storeBytes c.ptr K (blk c.idx)⟩)
    (p : Nat) (mem : Mem) :
    ∃ s', forLoop (fun (c : Scan Int) => decide (c.idx < (bc : Int))) body fuel ⟨0, p, mem⟩
        = some s' ∧ s'.ptr = p + bc ∧
      s'.mem = mem.storeBytes p bc (fun j => blk ((K * (j / K) : Nat) : Int) (j % K)) := by
  obtain ⟨s', hs', ⟨k, hk, hle, hp, hm⟩, hcond⟩ := forLoop_rule
    (fun (c : Scan Int) => decide (c.idx < (bc : Int))) body
    (fun c => ∃ k : Nat, c.idx = ((K * k : Nat) : Int) ∧ K * k ≤ bc ∧ c.ptr = p + K * k ∧
      c.mem = mem.storeBytes p (K * k) (fun j => blk ((K * (j / K) : Nat) : Int) (j % K)))
    (fun c => ((bc : Int) - c.idx).toNat)
    (by
      intro c ⟨k, hk, hle, hp, hm⟩ hcond
      have hlt : c.idx < (bc : Int) := by simpa using hcond
      have hlt' : K * k < bc := by rw [hk] at hlt; exact_mod_cast hlt
      have hKk : K * (k + 1) = K * k + K := by ring
      have hle' : K * k + K ≤ bc := by
        obtain ⟨q, hq⟩ := Nat.dvd_of_mod_eq_zero hbc
        rw [hq] at hlt' ⊢
        have : k < q := Nat.lt_of_mul_lt_mul_left hlt'
        calc K * k + K = K * (k + 1) := by ring
          _ ≤ K * q := Nat.mul_le_mul_left _ this
      refine ⟨_, hbody c, ⟨k + 1, ?_, ?_, ?_, ?_⟩, ?_⟩
      · show c.idx + (K : Int) = _
        rw [hk]; push_cast; ring
      · omega
      · show c.ptr + K = _
        omega
      · show c.mem.storeBytes c.ptr K (blk c.idx) = _
        rw [hm, hp, hKk]
        refine storeBytes_snoc _ _ _ _ _ _ ?_
        intro j hj
        have e1 : (K * k + j) / K = k := by
          rw [Nat.mul_add_div hK, Nat.div_eq_of_lt hj, Nat.add_zero]
        have e2 : (K * k + j) % K = j := by
          rw [Nat.mul_add_mod, Nat.mod_eq_of_lt hj]
        show blk c.idx j = blk ((K * ((K * k + j) / K) : Nat) : Int) ((K * k + j) % K)
        rw [e1, e2, hk]
      · show ((bc : Int) - (c.idx + (K : Int))).toNat < ((bc : Int) - c.idx).toNat
        omega)
    fuel ⟨0, p, mem⟩ ⟨0, by simp, by omega, by simp, by simp [storeBytes_zero]⟩
    (by show ((bc : Int) - 0).toNat ≤ fuel; omega)
  refine ⟨s', hs', ?_⟩
  have h1 : ¬ s'.idx < (bc : Int) := by simpa using hcond
  have h2 : K * k = bc := by
    rw [hk] at h1
    have : ¬ K * k < bc := by exact_mod_cast h1
    omega
  rw [hp, hm, h2]
  exact ⟨rfl, rfl⟩

/-- A block loop whose body sets the `K` bytes of its block and leaves the bytes below its
pointer alone sets the bytes of all blocks, whatever else it writes above. -/
theorem blockLoop_bytes (K : Nat) (hK : 0 < K) (bc fuel : Nat) (hbc : bc % K = 0)
    (hf : bc ≤ fuel) (body : Scan Int → Option (Scan Int)) (blk : Int → Nat → uchar)
    (hbody : ∀ c : Scan Int, ∃ m', body c = some ⟨c.idx + (K : Int), c.ptr + K, m'⟩ ∧
      (∀ a, a < c.ptr → m'.byte a = c.mem.byte a) ∧
      (∀ j, j < K → m'.byte (c.ptr + j) = blk c.idx j))
    (p : Nat) (mem : Mem) :
    ∃ s', forLoop (fun (c : Scan Int) => decide (c.idx < (bc : Int))) body fuel ⟨0, p, mem⟩
        = some s' ∧ s'.ptr = p + bc ∧ (∀ a, a < p → s'.mem.byte a = mem.byte a) ∧
      ∀ j, j < bc → s'.mem.byte (p + j) = blk ((K * (j / K) : Nat) : Int) (j % K) := by
  obtain ⟨s', hs', ⟨k, hk, hle, hp, hlow, hm⟩, hcond⟩ := forLoop_rule
    (fun (c : Scan Int) => decide (c.idx < (bc : Int))) body
    (fun c => ∃ k : Nat, c.idx = ((K * k : Nat) : Int) ∧ K * k ≤ bc ∧ c.ptr = p + K * k ∧
      (∀ a, a < p → c.mem.byte a = mem.byte a) ∧
      ∀ j, j < K * k → c.mem.byte (p + j) = blk ((K * (j / K) : Nat) : Int) (j % K))
    (fun c => ((bc : Int) - c.idx).toNat)
    (by
      intro c ⟨k, hk, hle, hp, hlow, hm⟩ hcond
      have hlt : c.idx < (bc : Int) := by simpa using hcond
      have hlt' : K * k < bc := by rw [hk] at hlt; exact_mod_cast hlt
      have hKk : K * (k + 1) = K * k + K := by ring
      have hle' : K * k + K ≤ bc := by
        obtain ⟨q, hq⟩ := Nat.dvd_of_mod_eq_zero hbc
        rw [hq] at hlt' ⊢
        have : k < q := Nat.lt_of_mul_lt_mul_left hlt'
        calc K * k + K = K * (k + 1) := by ring
          _ ≤ K * q := Nat.mul_le_mul_left _ this
      obtain ⟨m', hb, hlo, hin⟩ := hbody c
      refine ⟨_, hb, ⟨k + 1, ?_, ?_, ?_, ?_, ?_⟩, ?_⟩
      · show c.idx + (K : Int) = _
        rw [hk]; push_cast; ring
      · omega
      · show c.ptr + K = _
        omega
      · intro a ha
        show m'.byte a = _
        rw [hlo a (by omega)]
        exact hlow a ha
      · intro j hj
        show m'.byte (p + j) = _
        by_cases hjk : j < K * k
        · rw [hlo _ (by omega)]
          exact hm j hjk
        · obtain ⟨i, hi⟩ : ∃ i, j = K * k + i := ⟨j - K * k, by omega⟩
          have hiK : i < K := by omega
          have e1 : (K * k + i) / K = k := by
            rw [Nat.mul_add_div hK, Nat.div_eq_of_lt hiK, Nat.add_zero]
          have e2 : (K * k + i) % K = i := by
            rw [Nat.mul_add_mod, Nat.mod_eq_of_lt hiK]
          have e3 : p + j = c.ptr + i := by omega
          rw [e3, hin i hiK, hi, e1, e2, hk]
      · show ((bc : Int) - (c.idx + (K : Int))).toNat < ((bc : Int) - c.idx).toNat
        omega)
    fuel ⟨0, p, mem⟩ ⟨0, by simp, by omega, by simp, by intro a _; rfl, by intro j hj; omega⟩
    (by show ((bc : Int) - 0).toNat ≤ fuel; omega)
  refine ⟨s', hs', ?_⟩
  have h1 : ¬ s'.idx < (bc : Int) := by simpa using hcond
  have h2 : K * k = bc := by
    rw [hk] at h1
    have : ¬ K * k < bc := by exact_mod_cast h1
    omega
  rw [hp, h2]
  rw [h2] at hm
  exact ⟨rfl, hlow, hm⟩

/-- The number of block-processed columns, `block_cols`, of both vector reducers. -/
theorem block_cols_eq (cols : Nat) (hc : cols < 2 ^ 31) :
    toInt cols - toInt (cols % 4) = ((cols - cols % 4 : Nat) : Int) ∧
    toInt cols - Int.tmod (toInt cols) 8 = ((cols - cols % 8 : Nat) : Int) := by
  have h1 := Nat.mod_le cols 4
  have h2 : Int.tmod (cols : Int) 8 = ((cols % 8 : Nat) : Int) := (Int.ofNat_tmod cols 8).symm
  rw [toInt_of_lt _ hc, toInt_of_lt _ (by omega), h2]
  constructor <;> omega

/-- One row of `toGrayScaleSSE_16BIT`: a single store of the `cols` bytes of the row, the
fixed-point block bytes for the block columns and the scalar bytes for the tail. -/
theorem rowPass16 {β : Type} (F : Scan Int → β) (img : BMP) (out : MyMat)
    (hc : out.cols < 2 ^ 31) (row : Int) (p : Nat) (mem : Mem) :
    ∃ s', ((blockLoop16 img out row ((out.cols - out.cols % 8 : Nat) : Int) p mem).bind fun b =>
        (tailLoop img out row ((out.cols - out.cols % 8 : Nat) : Int) b.ptr b.mem).map F)
          = some (F s') ∧
      s'.mem = mem.storeBytes p out.cols (fun c =>
        if c < out.cols - out.cols % 8 then block16 img row ((8 * (c / 8) : Nat) : Int) (c % 8)
        else scalarLuma (img.GetPixel (c : Int) row)) := by
  have hle : out.cols - out.cols % 8 ≤ out.cols := Nat.sub_le _ _
  have hbc : (out.cols - out.cols % 8) % 8 = 0 := by omega
  obtain ⟨b, hb, hbp, hbm⟩ := blockLoop_exact 8 (by omega) (out.cols - out.cols % 8) out.cols
    hbc hle _ (fun i => block16 img row i) (fun c => rfl) p mem
  obtain ⟨s', hs', hm⟩ := tailLoop_exact img out row (out.cols - out.cols % 8) hle hc b.ptr b.mem
  refine ⟨s', ?_, ?_⟩
  · unfold blockLoop16
    erw [hb]
    simp only [Option.some_bind, hs', Option.map_some']
  · rw [hm, hbm, hbp]
    have e : (out.cols - out.cols % 8) + (out.cols - (out.cols - out.cols % 8)) = out.cols := by
      omega
    have h := storeBytes_snoc mem p (out.cols - out.cols % 8)
      (out.cols - (out.cols - out.cols % 8))
      (fun c => if c < out.cols - out.cols % 8
        then block16 img row ((8 * (c / 8) : Nat) : Int) (c % 8)
        else scalarLuma (img.GetPixel (c : Int) row))
      (fun j => scalarLuma (img.GetPixel ((out.cols - out.cols % 8 + j : Nat) : Int) row))
      (by intro j hj; show _ = ite _ _ _; rw [if_neg (by omega)])
    rw [e] at h
    rw [← h]
    congr 1
    exact storeBytes_congr _ _ _ _ _ (by intro j hj; show _ = ite _ _ _; rw [if_pos hj])

/-- Function `toGrayScaleSSE_16BIT`, every output byte: the call returns; the byte at offset
`row * step + col` is the fixed-point block byte for a block column and the scalar byte
for a tail column, and it has been written exactly once. -/
theorem toGrayScaleSSE_16BIT_exact (img : BMP) (out : MyMat) (mem : Mem)
    (hr : out.rows < 2 ^ 31) (hc : out.cols < 2 ^ 31) (hcs : out.cols ≤ out.step) :
    ∃ mem', toGrayScaleSSE_16BIT img out mem = some mem' ∧
      ∀ r c, r < out.rows → c < out.cols →
        mem'.byte (out.data + r * out.step + c) =
          (if c < out.cols - out.cols % 8
            then block16 img (r : Int) ((8 * (c / 8) : Nat) : Int) (c % 8)
            else scalarLuma (img.GetPixel (c : Int) (r : Int))) ∧
        mem'.writes (out.data + r * out.step + c) = mem.writes (out.data + r * out.step + c) + 1 := by
  unfold toGrayScaleSSE_16BIT
  simp only [(block_cols_eq out.cols hc).2, toInt_of_lt _ hr]
  refine rowLoop_exact_map _ _ (fun (s : Scan Int) => s.idx.toNat) (fun s => s.ptr)
    (fun s => s.mem) (fun s => 0 ≤ s.idx) out.rows out.cols out.step out.data
    (fun r c => if c < out.cols - out.cols % 8
            then block16 img (r : Int) ((8 * (c / 8) : Nat) : Int) (c % 8)
            else scalarLuma (img.GetPixel (c : Int) (r : Int))) hcs ?_ ?_
    ⟨0, out.data, mem⟩ (le_refl _) rfl rfl
  · intro s h0
    have h0' : 0 ≤ s.idx := h0
    show decide (s.idx < (out.rows : Int)) = decide (s.idx.toNat < out.rows)
    rw [decide_eq_decide]
    omega
  · intro s h0 hlt
    have h0' : 0 ≤ s.idx := h0
    obtain ⟨s', hs', hm⟩ := rowPass16
      (fun c => (⟨s.idx + 1, s.ptr + out.step, c.mem⟩ : Scan Int)) img out hc s.idx s.ptr s.mem
    refine ⟨_, hs', ?_, ?_, rfl, ?_⟩
    · show 0 ≤ s.idx + 1
      omega
    · show (s.idx + 1).toNat = s.idx.toNat + 1
      omega
    · show s'.mem = _
      rw [hm]
      simp only [Int.toNat_of_nonneg h0]

/-- The low four bytes of the `long` stored by `toGrayScaleSSE` are the low four bytes of
the register, whatever the width (at least 4 bytes) of `long`. -/
theorem cvtsi_bytes (color : M128i) (L : Nat) (hL : 4 ≤ L) (j : Nat) (hj : j < 4) :
    byteOf (_mm_cvtsi128_si32 color % 2 ^ (8 * L)).toNat j = color j := by
  have hdvd : ((2 : Int) ^ 32) ∣ (2 : Int) ^ (8 * L) := pow_dvd_pow 2 (by omega)
  have hpos : (0 : Int) < 2 ^ (8 * L) := by positivity
  have hnn := Int.emod_nonneg (_mm_cvtsi128_si32 color) (ne_of_gt hpos)
  have h1 := Int.emod_emod_of_dvd (_mm_cvtsi128_si32 color) hdvd
  have h0 := (color 0).isLt
  have h1' := (color 1).isLt
  have h2' := (color 2).isLt
  have h3' := (color 3).isLt
  have hu : _mm_cvtsi128_si32 color % 2 ^ 32 =
      (((color 0).val + 256 * (color 1).val + 65536 * (color 2).val
        + 16777216 * (color 3).val : Nat) : Int) := by
    unfold _mm_cvtsi128_si32 signed32 lane32
    norm_num
    split <;> omega
  rw [hu] at h1
  generalize _mm_cvtsi128_si32 color % 2 ^ (8 * L) = X at hnn h1
  obtain ⟨x, rfl⟩ := Int.eq_ofNat_of_zero_le hnn
  rw [Int.toNat_ofNat]
  have h1n : x % 2 ^ 32 = (color 0).val + 256 * (color 1).val + 65536 * (color 2).val
        + 16777216 * (color 3).val := by exact_mod_cast h1
  apply Fin.ext
  rw [byteOf_val]
  interval_cases j <;> norm_num at h1n ⊢ <;> omega

/-- The block loop of `toGrayScaleSSE`, contents: the bytes of the block columns are set,
the bytes below the row pointer are not touched (for any width of `long`). -/
theorem blockLoopSSE_bytes (L : Nat) (hL : 4 ≤ L) (img : BMP) (out : MyMat) (row : Int)
    (p : Nat) (mem : Mem) :
    ∃ b, blockLoopSSE L img out row ((out.cols - out.cols % 4 : Nat) : Int) p mem = some b ∧
      b.ptr = p + (out.cols - out.cols % 4) ∧ (∀ a, a < p → b.mem.byte a = mem.byte a) ∧
      ∀ j, j < out.cols - out.cols % 4 →
        b.mem.byte (p + j) = blockSSE img row ((4 * (j / 4) : Nat) : Int) (j % 4) := by
  have hle : out.cols - out.cols % 4 ≤ out.cols := Nat.sub_le _ _
  have hbc : (out.cols - out.cols % 4) % 4 = 0 := by omega
  obtain ⟨b, hb, h⟩ := blockLoop_bytes 4 (by omega) (out.cols - out.cols % 4) out.cols hbc hle
    (fun c => some ⟨c.idx + 4, c.ptr + 4,
      storeLong L c.mem c.ptr (_mm_cvtsi128_si32 (blockSSE img row c.idx))⟩)
    (fun i => blockSSE img row i)
    (by
      intro c
      refine ⟨_, rfl, ?_, ?_⟩
      · intro a ha
        exact (storeBytes_out _ _ _ _ _ (Or.inl ha)).1
      · intro j hj
        unfold storeLong
        rw [storeBytes_byte_in _ _ _ _ _ (by omega)]
        exact cvtsi_bytes _ L hL j hj)
    p mem
  exact ⟨b, hb, h⟩

/-- One row of `toGrayScaleSSE`, contents: the bytes below the row pointer are not touched
and the `cols` bytes of the row are set (for any width of `long`). -/
theorem rowPassSSE_bytes {β : Type} (F : Scan Int → β) (L : Nat) (hL : 4 ≤ L) (img : BMP)
    (out : MyMat) (hc : out.cols < 2 ^ 31) (row : Int) (p : Nat) (mem : Mem) :
    ∃ s', ((blockLoopSSE L img out row ((out.cols - out.cols % 4 : Nat) : Int) p mem).bind
        fun b => (tailLoop img out row ((out.cols - out.cols % 4 : Nat) : Int) b.ptr b.mem).map F)
          = some (F s') ∧
      (∀ a, a < p → s'.mem.byte a = mem.byte a) ∧
      ∀ c, c < out.cols → s'.mem.byte (p + c) =
        if c < out.cols - out.cols % 4 then blockSSE img row ((4 * (c / 4) : Nat) : Int) (c % 4)
        else scalarLuma (img.GetPixel (c : Int) row) := by
  have hle : out.cols - out.cols % 4 ≤ out.cols := Nat.sub_le _ _
  obtain ⟨b, hb, hbp, hlow, hblk⟩ := blockLoopSSE_bytes L hL img out row p mem
  obtain ⟨s', hs', hm⟩ := tailLoop_exact img out row (out.cols - out.cols % 4) hle hc b.ptr b.mem
  refine ⟨s', ?_, ?_, ?_⟩
  · rw [hb]
    simp only [Option.some_bind, hs', Option.map_some']
  · intro a ha
    rw [hm, (storeBytes_out _ _ _ _ _ (Or.inl (by omega))).1]
    exact hlow a ha
  · intro c hcc
    by_cases h : c < out.cols - out.cols % 4
    · rw [if_pos h, hm, (storeBytes_out _ _ _ _ _ (Or.inl (by omega))).1]
      exact hblk c h
    · rw [if_neg h, hm]
      have e : p + c = b.ptr + (c - (out.cols - out.cols % 4)) := by omega
      rw [e, storeBytes_byte_in _ _ _ _ _ (by omega)]
      have e2 : out.cols - out.cols % 4 + (c - (out.cols - out.cols % 4)) = c := by omega
      rw [e2]

/-- Function `toGrayScaleSSE`, every output byte, for any width of `long`: the call returns; the
byte at offset `row * step + col` is the float block byte for a block column and the scalar
byte for a tail column. -/
theorem toGrayScaleSSE_bytes (L : Nat) (hL : 4 ≤ L) (img : BMP) (out : MyMat) (mem : Mem)
    (hr : out.rows < 2 ^ 31) (hc : out.cols < 2 ^ 31) (hcs : out.cols ≤ out.step) :
    ∃ mem', toGrayScaleSSE L img out mem = some mem' ∧
      ∀ r c, r < out.rows → c < out.cols →
        mem'.byte (out.data + r * out.step + c) =
          (if c < out.cols - out.cols % 4
            then blockSSE img (r : Int) ((4 * (c / 4) : Nat) : Int) (c % 4)
            else scalarLuma (img.GetPixel (c : Int) (r : Int))) := by
  unfold toGrayScaleSSE
  simp only [(block_cols_eq out.cols hc).1, toInt_of_lt _ hr]
  refine rowLoop_bytes_map _ _ (fun (s : Scan Int) => s.idx.toNat) (fun s => s.ptr)
    (fun s => s.mem) (fun s => 0 ≤ s.idx) out.rows out.cols out.step out.data
    (fun r c => if c < out.cols - out.cols % 4
            then blockSSE img (r : Int) ((4 * (c / 4) : Nat) : Int) (c % 4)
            else scalarLuma (img.GetPixel (c : Int) (r : Int))) hcs ?_ ?_
    ⟨0, out.data, mem⟩ (le_refl _) rfl rfl
  · intro s h0
    have h0' : 0 ≤ s.idx := h0
    show decide (s.idx < (out.rows : Int)) = decide (s.idx.toNat < out.rows)
    rw [decide_eq_decide]
    omega
  · intro s h0 hlt
    have h0' : 0 ≤ s.idx := h0
    obtain ⟨s', hs', hlow, hrow⟩ := rowPassSSE_bytes
      (fun c => (⟨s.idx + 1, s.ptr + out.step, c.mem⟩ : Scan Int)) L hL img out hc s.idx s.ptr
      s.mem
    refine ⟨_, hs', ?_, ?_, rfl, hlow, ?_⟩
    · show 0 ≤ s.idx + 1
      omega
    · show (s.idx + 1).toNat = s.idx.toNat + 1
      omega
    · intro c hcc
      show s'.mem.byte (s.ptr + c) = _
      rw [hrow c hcc]
      simp only [Int.toNat_of_nonneg h0']

/-- A store of the block columns followed by a store of the tail columns is one store of
the whole row. -/
theorem storeBytes_block_tail (mem : Mem) (p bc cols : Nat) (hle : bc ≤ cols)
    (v1 v2 : Nat → uchar) :
    (mem.storeBytes p bc v1).storeBytes (p + bc) (cols - bc) (fun j => v2 (bc + j)) =
      mem.storeBytes p cols (fun c => if c < bc then v1 c else v2 c) := by
  have e : bc + (cols - bc) = cols := by omega
  have h := storeBytes_snoc mem p bc (cols - bc) (fun c => if c < bc then v1 c else v2 c)
    (fun j => v2 (bc + j)) (by intro j hj; show _ = ite _ _ _; rw [if_neg (by omega)])
  rw [e] at h
  rw [← h]
  congr 1
  exact storeBytes_congr _ _ _ _ _ (by intro j hj; show _ = ite _ _ _; rw [if_pos hj])

/-- One row of `toGrayScaleSSE` when `long` has 4 bytes: a single store of the `cols`
bytes of the row. -/
theorem rowPassSSE_exact {β : Type} (F : Scan Int → β) (img : BMP) (out : MyMat)
    (hc : out.cols < 2 ^ 31) (row : Int) (p : Nat) (mem : Mem) :
    ∃ s', ((blockLoopSSE 4 img out row ((out.cols - out.cols % 4 : Nat) : Int) p mem).bind
        fun b => (tailLoop img out row ((out.cols - out.cols % 4 : Nat) : Int) b.ptr b.mem).map F)
          = some (F s') ∧
      s'.mem = mem.storeBytes p out.cols (fun c =>
        if c < out.cols - out.cols % 4 then blockSSE img row ((4 * (c / 4) : Nat) : Int) (c % 4)
        else scalarLuma (img.GetPixel (c : Int) row)) := by
  have hle : out.cols - out.cols % 4 ≤ out.cols := Nat.sub_le _ _
  have hbc : (out.cols - out.cols % 4) % 4 = 0 := by omega
  obtain ⟨b, hb, hbp, hbm⟩ := blockLoop_exact 4 (by omega) (out.cols - out.cols % 4) out.cols
    hbc hle _ (fun i => byteOf (_mm_cvtsi128_si32 (blockSSE img row i) % 2 ^ (8 * 4)).toNat)
    (fun c => rfl) p mem
  obtain ⟨s', hs', hm⟩ := tailLoop_exact img out row (out.cols - out.cols % 4) hle hc b.ptr b.mem
  refine ⟨s', ?_, ?_⟩
  · unfold blockLoopSSE
    erw [hb]
    simp only [Option.some_bind, hs', Option.map_some']
  · rw [hm, hbm, hbp, ← storeBytes_block_tail mem p _ out.cols hle
      (fun c => blockSSE img row ((4 * (c / 4) : Nat) : Int) (c % 4))
      (fun c => scalarLuma (img.GetPixel (c : Int) row))]
    congr 1
    refine storeBytes_congr _ _ _ _ _ ?_
    intro j hj
    exact cvtsi_bytes _ 4 (le_refl _) (j % 4) (Nat.mod_lt _ (by omega))

/-- Function `toGrayScaleSSE` when `long` has 4 bytes, every output byte: the call returns; the byte
at offset `row * step + col` is the float block byte for a block column and the scalar byte
for a tail column, and it has been written exactly once. -/
theorem toGrayScaleSSE_exact (img : BMP) (out : MyMat) (mem : Mem)
    (hr : out.rows < 2 ^ 31) (hc : out.cols < 2 ^ 31) (hcs : out.cols ≤ out.step) :
    ∃ mem', toGrayScaleSSE 4 img out mem = some mem' ∧
      ∀ r c, r < out.rows → c < out.cols →
        mem'.byte (out.data + r * out.step + c) =
          (if c < out.cols - out.cols % 4
            then blockSSE img (r : Int) ((4 * (c / 4) : Nat) : Int) (c % 4)
            else scalarLuma (img.GetPixel (c : Int) (r : Int))) ∧
        mem'.writes (out.data + r * out.step + c) = mem.writes (out.data + r * out.step + c) + 1 := by
  unfold toGrayScaleSSE
  simp only [(block_cols_eq out.cols hc).1, toInt_of_lt _ hr]
  refine rowLoop_exact_map _ _ (fun (s : Scan Int) => s.idx.toNat) (fun s => s.ptr)
    (fun s => s.mem) (fun s => 0 ≤ s.idx) out.rows out.cols out.step out.data
    (fun r c => if c < out.cols - out.cols % 4
            then blockSSE img (r : Int) ((4 * (c / 4) : Nat) : Int) (c % 4)
            else scalarLuma (img.GetPixel (c : Int) (r : Int))) hcs ?_ ?_
    ⟨0, out.data, mem⟩ (le_refl _) rfl rfl
  · intro s h0
    have h0' : 0 ≤ s.idx := h0
    show decide (s.idx < (out.rows : Int)) = decide (s.idx.toNat < out.rows)
    rw [decide_eq_decide]
    omega
  · intro s h0 hlt
    have h0' : 0 ≤ s.idx := h0
    obtain ⟨s', hs', hm⟩ := rowPassSSE_exact
      (fun c => (⟨s.idx + 1, s.ptr + out.step, c.mem⟩ : Scan Int)) img out hc s.idx s.ptr s.mem
    refine ⟨_, hs', ?_, ?_, rfl, ?_⟩
    · show 0 ≤ s.idx + 1
      omega
    · show (s.idx + 1).toNat = s.idx.toNat + 1
      omega
    · show s'.mem = _
      rw [hm]
      simp only [Int.toNat_of_nonneg h0']

/-! ## The scans of the difference oracle -/

theorem runMax_ge (x r y : uchar) (h : y ≤ r) : y ≤ if x < r then r else x := by
  split
  · exact h
  · rename_i hn
    exact le_trans h (not_lt.mp hn)

theorem runMax_self (x r : uchar) : x ≤ if x < r then r else x := by
  split
  · rename_i hn
    exact le_of_lt hn
  · exact le_refl _

theorem runMax_cases (x r : uchar) :
    (if x < r then r else x) = r ∨ (if x < r then r else x) = x := by
  split
  · exact Or.inl rfl
  · exact Or.inr rfl

/-- The column scan of `imgDif`: the running maximum does not decrease, bounds the
difference of every byte pair of the row, and is the initial value or one of them. -/
theorem difCols_max (mem : Mem) (cols : Nat) (p1 p2 : Nat) (res0 : uchar) :
    ∃ c', forLoop (fun (c : DifScan) => decide (c.idx < cols))
        (fun c =>
          let e1 := mem.byte c.ptr1
          let e2 := mem.byte c.ptr2
          let pixel_res : uchar :=
            if e2 < e1 then Fin.ofNat (e1.val - e2.val) else Fin.ofNat (e2.val - e1.val)
          some ⟨c.idx + 1, c.ptr1 + 1, c.ptr2 + 1, if pixel_res < c.res then c.res else pixel_res⟩)
        cols ⟨0, p1, p2, res0⟩ = some c' ∧ res0 ≤ c'.res ∧
      (∀ j, j < cols →
        (if mem.byte (p2 + j) < mem.byte (p1 + j)
          then (Fin.ofNat ((mem.byte (p1 + j)).val - (mem.byte (p2 + j)).val) : uchar)
          else Fin.ofNat ((mem.byte (p2 + j)).val - (mem.byte (p1 + j)).val)) ≤ c'.res) ∧
      (c'.res = res0 ∨ ∃ j, j < cols ∧ c'.res =
        (if mem.byte (p2 + j) < mem.byte (p1 + j)
          then (Fin.ofNat ((mem.byte (p1 + j)).val - (mem.byte (p2 + j)).val) : uchar)
          else Fin.ofNat ((mem.byte (p2 + j)).val - (mem.byte (p1 + j)).val))) := by
  obtain ⟨c', hc', ⟨hle, h1, h2, hge, hall, hatt⟩, hcond⟩ := forLoop_rule
    (fun (c : DifScan) => decide (c.idx < cols))
    (fun c =>
          let e1 := mem.byte c.ptr1
          let e2 := mem.byte c.ptr2
          let pixel_res : uchar :=
            if e2 < e1 then Fin.ofNat (e1.val - e2.val) else Fin.ofNat (e2.val - e1.val)
          some ⟨c.idx + 1, c.ptr1 + 1, c.ptr2 + 1, if pixel_res < c.res then c.res else pixel_res⟩)
    (fun c => c.idx ≤ cols ∧ c.ptr1 = p1 + c.idx ∧ c.ptr2 = p2 + c.idx ∧ res0 ≤ c.res ∧
      (∀ j, j < c.idx →
        (if mem.byte (p2 + j) < mem.byte (p1 + j)
          then (Fin.ofNat ((mem.byte (p1 + j)).val - (mem.byte (p2 + j)).val) : uchar)
          else Fin.ofNat ((mem.byte (p2 + j)).val - (mem.byte (p1 + j)).val)) ≤ c.res) ∧
      (c.res = res0 ∨ ∃ j, j < c.idx ∧ c.res =
        (if mem.byte (p2 + j) < mem.byte (p1 + j)
          then (Fin.ofNat ((mem.byte (p1 + j)).val - (mem.byte (p2 + j)).val) : uchar)
          else Fin.ofNat ((mem.byte (p2 + j)).val - (mem.byte (p1 + j)).val))))
    (fun c => cols - c.idx)
    (by
      intro c ⟨hle, h1, h2, hge, hall, hatt⟩ hcond
      have hlt : c.idx < cols := by simpa using hcond
      refine ⟨_, rfl, ⟨?_, ?_, ?_, ?_, ?_, ?_⟩, ?_⟩
      · show c.idx + 1 ≤ cols
        omega
      · show c.ptr1 + 1 = p1 + (c.idx + 1)
        omega
      · show c.ptr2 + 1 = p2 + (c.idx + 1)
        omega
      · show res0 ≤ ite _ _ _
        exact runMax_ge _ _ _ hge
      · intro j hj
        show _ ≤ ite _ _ _
        rw [h1, h2]
        have hj' : j < c.idx + 1 := hj
        by_cases hjc : j < c.idx
        · exact runMax_ge _ _ _ (hall j hjc)
        · have hje : j = c.idx := by omega
          rw [hje]
          exact runMax_self _ _
      · show ite _ _ _ = res0 ∨ ∃ j, j < c.idx + 1 ∧ ite _ _ _ = _
        rw [h1, h2]
        rcases runMax_cases (if mem.byte (p2 + c.idx) < mem.byte (p1 + c.idx)
          then (Fin.ofNat ((mem.byte (p1 + c.idx)).val - (mem.byte (p2 + c.idx)).val) : uchar)
          else Fin.ofNat ((mem.byte (p2 + c.idx)).val - (mem.byte (p1 + c.idx)).val)) c.res
          with h | h
        · rw [h]
          rcases hatt with h' | ⟨j, hj, h'⟩
          · exact Or.inl h'
          · exact Or.inr ⟨j, by omega, h'⟩
        · exact Or.inr ⟨c.idx, by omega, h⟩
      · show cols - (c.idx + 1) < cols - c.idx
        omega)
    cols ⟨0, p1, p2, res0⟩
    ⟨Nat.zero_le _, rfl, rfl, le_refl _, by intro j hj; exact absurd hj (Nat.not_lt_zero _),
      Or.inl rfl⟩
    (by show cols - 0 ≤ cols; omega)
  have h3 : ¬ c'.idx < cols := by simpa using hcond
  have h4 : c'.idx = cols := by omega
  rw [h4] at hall hatt
  exact ⟨c', hc', hge, hall, hatt⟩

/-- The value of `imgDif` on buffers of one shape: the call returns; the value bounds the
difference of the byte pairs at offsets `row * step + col` for `col < cols` (the bytes the
scan reads), and it is 0 or the difference of one of these pairs. -/
theorem imgDif_max (mem : Mem) (A B : MyMat) (hr : A.rows = B.rows) (hc : A.cols = B.cols)
    (hch : A.channels = B.channels) :
    ∃ v, imgDif mem A B = some v ∧
      (∀ r c, r < A.rows → c < A.cols →
        (if mem.byte (B.data + r * B.step + c) < mem.byte (A.data + r * A.step + c)
          then (Fin.ofNat ((mem.byte (A.data + r * A.step + c)).val
            - (mem.byte (B.data + r * B.step + c)).val) : uchar)
          else Fin.ofNat ((mem.byte (B.data + r * B.step + c)).val
            - (mem.byte (A.data + r * A.step + c)).val)) ≤ v) ∧
      (v = 0 ∨ ∃ r c, r < A.rows ∧ c < A.cols ∧ v =
        (if mem.byte (B.data + r * B.step + c) < mem.byte (A.data + r * A.step + c)
          then (Fin.ofNat ((mem.byte (A.data + r * A.step + c)).val
            - (mem.byte (B.data + r * B.step + c)).val) : uchar)
          else Fin.ofNat ((mem.byte (B.data + r * B.step + c)).val
            - (mem.byte (A.data + r * A.step + c)).val))) := by
  unfold imgDif
  rw [if_pos ⟨hr, hc, hch⟩]
  obtain ⟨s', hs', ⟨hle, h1, h2, hall, hatt⟩, hcond⟩ := forLoop_rule
    (fun (s : DifScan) => decide (s.idx < A.rows))
    (fun s =>
        (forLoop (fun (c : DifScan) => decide (c.idx < A.cols))
          (fun c =>
            let e1 := mem.byte c.ptr1
            let e2 := mem.byte c.ptr2
            let pixel_res : uchar :=
              if e2 < e1 then Fin.ofNat (e1.val - e2.val) else Fin.ofNat (e2.val - e1.val)
            some ⟨c.idx + 1, c.ptr1 + 1, c.ptr2 + 1, if pixel_res < c.res then c.res else pixel_res⟩)
          A.cols ⟨0, s.ptr1, s.ptr2, s.res⟩).map
          fun c => ⟨s.idx + 1, s.ptr1 + A.step, s.ptr2 + B.step, c.res⟩)
    (fun s => s.idx ≤ A.rows ∧ s.ptr1 = A.data + s.idx * A.step ∧
      s.ptr2 = B.data + s.idx * B.step ∧
      (∀ r c, r < s.idx → c < A.cols →
        (if mem.byte (B.data + r * B.step + c) < mem.byte (A.data + r * A.step + c)
          then (Fin.ofNat ((mem.byte (A.data + r * A.step + c)).val
            - (mem.byte (B.data + r * B.step + c)).val) : uchar)
          else Fin.ofNat ((mem.byte (B.data + r * B.step + c)).val
            - (mem.byte (A.data + r * A.step + c)).val)) ≤ s.res) ∧
      (s.res = 0 ∨ ∃ r c, r < s.idx ∧ c < A.cols ∧ s.res =
        (if mem.byte (B.data + r * B.step + c) < mem.byte (A.data + r * A.step + c)
          then (Fin.ofNat ((mem.byte (A.data + r * A.step + c)).val
            - (mem.byte (B.data + r * B.step + c)).val) : uchar)
          else Fin.ofNat ((mem.byte (B.data + r * B.step + c)).val
            - (mem.byte (A.data + r * A.step + c)).val))))
    (fun s => A.rows - s.idx)
    (by
      intro s ⟨hle, h1, h2, hall, hatt⟩ hcond
      have hlt : s.idx < A.rows := by simpa using hcond
      obtain ⟨c', hc', hge, hrow, hratt⟩ := difCols_max mem A.cols s.ptr1 s.ptr2 s.res
      rw [h1, h2] at hrow hratt
      refine ⟨⟨s.idx + 1, s.ptr1 + A.step, s.ptr2 + B.step, c'.res⟩, ?_,
        ⟨?_, ?_, ?_, ?_, ?_⟩, ?_⟩
      · beta_reduce
        rw [hc']
        rfl
      · show s.idx + 1 ≤ A.rows
        omega
      · show s.ptr1 + A.step = A.data + (s.idx + 1) * A.step
        rw [h1]; ring
      · show s.ptr2 + B.step = B.data + (s.idx + 1) * B.step
        rw [h2]; ring
      · intro r c hr' hc'
        show _ ≤ c'.res
        have hr'' : r < s.idx + 1 := hr'
        by_cases hrs : r < s.idx
        · exact le_trans (hall r c hrs hc') hge
        · have hre : r = s.idx := by omega
          rw [hre]
          exact hrow c hc'
      · show c'.res = 0 ∨ ∃ r c, r < s.idx + 1 ∧ c < A.cols ∧ c'.res = _
        rcases hratt with h | ⟨j, hj, h⟩
        · rcases hatt with h0 | ⟨r, c, hr', hc', h'⟩
          · exact Or.inl (by rw [h, h0])
          · exact Or.inr ⟨r, c, by omega, hc', by rw [h, h']⟩
        · exact Or.inr ⟨s.idx, j, by omega, hj, h⟩
      · show A.rows - (s.idx + 1) < A.rows - s.idx
        omega)
    A.rows ⟨0, A.data, B.data, 0⟩
    ⟨Nat.zero_le _, by simp, by simp, by intro r c hr'; exact absurd hr' (Nat.not_lt_zero _),
      Or.inl rfl⟩
    (by show A.rows - 0 ≤ A.rows; omega)
  have h3 : ¬ s'.idx < A.rows := by simpa using hcond
  have h4 : s'.idx = A.rows := by omega
  rw [h4] at hall hatt
  refine ⟨s'.res, ?_, hall, hatt⟩
  rw [hs']
  rfl

/-! ## The claims -/

/-- C1. Scalar reducer `toGrayScale`: for every image and every single-channel output buffer
with `rows` the image height and `cols` the image width (rows at least `cols * channels`
bytes apart), the call returns and the byte at offset `row * step + col` is the weighted sum
`Red * 0.2125f + Green * 0.7154f + Blue * 0.0721f` of pixel `(col, row)`, evaluated in
binary32 and truncated toward zero (a value below 256, so the cast to a byte keeps it).
That byte is the floor of the exact sum `(2125 R + 7154 G + 721 B) / 10000`, or one less
when the exact sum is a whole number. -/
theorem toGrayScale_output (img : BMP) (out : MyMat) (mem : Mem)
    (hrows : out.rows = img.TellHeight) (hcols : out.cols = img.TellWidth)
    (hch : out.channels = 1) (hstep : out.cols * out.channels ≤ out.step) :
    ∃ mem', toGrayScale img out mem = some mem' ∧
      ∀ row col, row < out.rows → col < out.cols →
        (((mem'.byte (out.data + row * out.step + col)).val : Nat) : Int) =
          f32_trunc
            (f32_add
              (f32_add (f32_mul (f32_ofInt (img.GetPixel col row).Red.val) W_RED)
                (f32_mul (f32_ofInt (img.GetPixel col row).Green.val) W_GREEN))
              (f32_mul (f32_ofInt (img.GetPixel col row).Blue.val) W_BLUE)) ∧
        10000 * (mem'.byte (out.data + row * out.step + col)).val ≤
          2125 * (img.GetPixel col row).Red.val + 7154 * (img.GetPixel col row).Green.val
            + 721 * (img.GetPixel col row).Blue.val ∧
        2125 * (img.GetPixel col row).Red.val + 7154 * (img.GetPixel col row).Green.val
            + 721 * (img.GetPixel col row).Blue.val ≤
          10000 * ((mem'.byte (out.data + row * out.step + col)).val + 1) := by
  have hr : out.rows < 2 ^ 31 := by rw [hrows]; exact img.height_int
  have hc : out.cols < 2 ^ 31 := by rw [hcols]; exact img.width_int
  have hcs : out.cols ≤ out.step := by rw [hch, Nat.mul_one] at hstep; exact hstep
  obtain ⟨mem', hm, h⟩ := toGrayScale_exact img out mem hcs
  refine ⟨mem', hm, ?_⟩
  intro row col hrow hcol
  rw [(h row col hrow hcol).1, toInt_of_lt _ (by omega), toInt_of_lt _ (by omega)]
  obtain ⟨t, -, hsum, hs, h1, h2⟩ := scalarLuma_spec (img.GetPixel col row)
  rw [hs, hsum]
  exact ⟨rfl, h1, h2⟩

/-- Witness of C1 on the 2x9 ramp image and a tight 2x9 buffer. -/
theorem toGrayScale_output_witness :
    (tightMat 2 9).rows = rampImage.TellHeight ∧ (tightMat 2 9).cols = rampImage.TellWidth ∧
    (tightMat 2 9).channels = 1 ∧ (tightMat 2 9).cols * (tightMat 2 9).channels ≤ (tightMat 2 9).step ∧
    ∃ mem', toGrayScale rampImage (tightMat 2 9) zeroMem = some mem' ∧
      ∀ row col, row < (tightMat 2 9).rows → col < (tightMat 2 9).cols →
        (((mem'.byte ((tightMat 2 9).data + row * (tightMat 2 9).step + col)).val : Nat) : Int) =
          f32_trunc
            (f32_add
              (f32_add (f32_mul (f32_ofInt (rampImage.GetPixel col row).Red.val) W_RED)
                (f32_mul (f32_ofInt (rampImage.GetPixel col row).Green.val) W_GREEN))
              (f32_mul (f32_ofInt (rampImage.GetPixel col row).Blue.val) W_BLUE)) ∧
        10000 * (mem'.byte ((tightMat 2 9).data + row * (tightMat 2 9).step + col)).val ≤
          2125 * (rampImage.GetPixel col row).Red.val + 7154 * (rampImage.GetPixel col row).Green.val
            + 721 * (rampImage.GetPixel col row).Blue.val ∧
        2125 * (rampImage.GetPixel col row).Red.val + 7154 * (rampImage.GetPixel col row).Green.val
            + 721 * (rampImage.GetPixel col row).Blue.val ≤
          10000 * ((mem'.byte ((tightMat 2 9).data + row * (tightMat 2 9).step + col)).val + 1) :=
  ⟨by decide, by decide, by decide, by decide,
    toGrayScale_output rampImage (tightMat 2 9) zeroMem (by decide) (by decide) (by decide)
      (by decide)⟩

/-- C2. `Get4Pixels16Bit` is a pure deinterleave: the eight 16-bit lanes of `out_BG` are the
Blue bytes of the four pixels followed by their Green bytes, those of `out_RA` the Red bytes
followed by the Alpha bytes, each zero-extended (a value below 256) and in pixel order. -/
theorem Get4Pixels16Bit_lanes (img : BMP) (r c : Int) :
    lanes16 (Get4Pixels16Bit img r c).1 =
      [(img.GetPixel c r).Blue.val, (img.GetPixel (c + 1) r).Blue.val,
       (img.GetPixel (c + 2) r).Blue.val, (img.GetPixel (c + 3) r).Blue.val,
       (img.GetPixel c r).Green.val, (img.GetPixel (c + 1) r).Green.val,
       (img.GetPixel (c + 2) r).Green.val, (img.GetPixel (c + 3) r).Green.val] ∧
    lanes16 (Get4Pixels16Bit img r c).2 =
      [(img.GetPixel c r).Red.val, (img.GetPixel (c + 1) r).Red.val,
       (img.GetPixel (c + 2) r).Red.val, (img.GetPixel (c + 3) r).Red.val,
       (img.GetPixel c r).Alpha.val, (img.GetPixel (c + 1) r).Alpha.val,
       (img.GetPixel (c + 2) r).Alpha.val, (img.GetPixel (c + 3) r).Alpha.val] ∧
    (∀ x ∈ lanes16 (Get4Pixels16Bit img r c).1 ++ lanes16 (Get4Pixels16Bit img r c).2,
      x < 256) := by
  have b0 := Get4Pixels16Bit_BG img r c 0 (by omega)
  have b1 := Get4Pixels16Bit_BG img r c 1 (by omega)
  have b2 := Get4Pixels16Bit_BG img r c 2 (by omega)
  have b3 := Get4Pixels16Bit_BG img r c 3 (by omega)
  have a0 := Get4Pixels16Bit_RA img r c 0 (by omega)
  have a1 := Get4Pixels16Bit_RA img r c 1 (by omega)
  have a2 := Get4Pixels16Bit_RA img r c 2 (by omega)
  have a3 := Get4Pixels16Bit_RA img r c 3 (by omega)
  norm_num at b0 b1 b2 b3 a0 a1 a2 a3
  have hBG : lanes16 (Get4Pixels16Bit img r c).1 =
      [(img.GetPixel c r).Blue.val, (img.GetPixel (c + 1) r).Blue.val,
       (img.GetPixel (c + 2) r).Blue.val, (img.GetPixel (c + 3) r).Blue.val,
       (img.GetPixel c r).Green.val, (img.GetPixel (c + 1) r).Green.val,
       (img.GetPixel (c + 2) r).Green.val, (img.GetPixel (c + 3) r).Green.val] := by
    simp [lanes16, List.range, List.range.loop, lane16, b0, b1, b2, b3]
  have hRA : lanes16 (Get4Pixels16Bit img r c).2 =
      [(img.GetPixel c r).Red.val, (img.GetPixel (c + 1) r).Red.val,
       (img.GetPixel (c + 2) r).Red.val, (img.GetPixel (c + 3) r).Red.val,
       (img.GetPixel c r).Alpha.val, (img.GetPixel (c + 1) r).Alpha.val,
       (img.GetPixel (c + 2) r).Alpha.val, (img.GetPixel (c + 3) r).Alpha.val] := by
    simp [lanes16, List.range, List.range.loop, lane16, a0, a1, a2, a3]
  refine ⟨hBG, hRA, ?_⟩
  rw [hBG, hRA]
  intro x hx
  simp only [List.cons_append, List.nil_append, List.mem_cons, List.mem_singleton,
    List.not_mem_nil, or_false] at hx
  rcases hx with h | h | h | h | h | h | h | h | h | h | h | h | h | h | h | h <;>
    (rw [h]; exact Fin.isLt _)

/-- C3. Fixed-point kernel of `toGrayScaleSSE_16BIT`: every lane of the three 16-bit weight
registers is the weight times 256 rounded to the nearest integer (54, 183, 18), and for
every full block of 8 columns starting at column `c` and every `i < 8` the byte written at
column `c + i` is `((wR * R + wG * G + wB * B) mod 2^16) >> 8` for the channels of pixel
`(c + i, row)`: pixel order is kept and the saturating pack does not change the value. -/
theorem toGrayScaleSSE_16BIT_kernel (img : BMP) (out : MyMat) (mem : Mem)
    (hrows : out.rows = img.TellHeight) (hcols : out.cols = img.TellWidth)
    (hch : out.channels = 1) (hstep : out.cols * out.channels ≤ out.step) :
    lanes16 CONST_RED_16_INT = List.replicate 8 (rneDiv (2125 * 256) 10000) ∧
    lanes16 CONST_GREEN_16_INT = List.replicate 8 (rneDiv (7154 * 256) 10000) ∧
    lanes16 CONST_BLUE_16_INT = List.replicate 8 (rneDiv (721 * 256) 10000) ∧
    ∃ mem', toGrayScaleSSE_16BIT img out mem = some mem' ∧
      ∀ row c i, row < out.rows → c % 8 = 0 → c + 8 ≤ out.cols → i < 8 →
        (mem'.byte (out.data + row * out.step + (c + i))).val =
          (lane16 CONST_RED_16_INT i * (img.GetPixel ((c + i : Nat) : Int) row).Red.val
            + lane16 CONST_GREEN_16_INT i * (img.GetPixel ((c + i : Nat) : Int) row).Green.val
            + lane16 CONST_BLUE_16_INT i * (img.GetPixel ((c + i : Nat) : Int) row).Blue.val)
            % 2 ^ 16 / 2 ^ 8 := by
  have hr : out.rows < 2 ^ 31 := by rw [hrows]; exact img.height_int
  have hc : out.cols < 2 ^ 31 := by rw [hcols]; exact img.width_int
  have hcs : out.cols ≤ out.step := by rw [hch, Nat.mul_one] at hstep; exact hstep
  refine ⟨by decide, by decide, by decide, ?_⟩
  obtain ⟨mem', hm, h⟩ := toGrayScaleSSE_16BIT_exact img out mem hr hc hcs
  refine ⟨mem', hm, ?_⟩
  intro row c i hrow hc8 hcc hi
  have hblock : c + i < out.cols - out.cols % 8 := by omega
  rw [(h row (c + i) hrow (by omega)).1, if_pos hblock]
  have e1 : 8 * ((c + i) / 8) = c := by omega
  have e2 : (c + i) % 8 = i := by omega
  rw [e1, e2, block16_byte img row c i hi, CONST_RED_16_INT_lane, CONST_GREEN_16_INT_lane,
    CONST_BLUE_16_INT_lane]
  have e3 : ((c : Nat) : Int) + ((i : Nat) : Int) = ((c + i : Nat) : Int) := by push_cast; rfl
  rw [e3]
  have hR := (img.GetPixel ((c + i : Nat) : Int) row).Red.isLt
  have hG := (img.GetPixel ((c + i : Nat) : Int) row).Green.isLt
  have hB := (img.GetPixel ((c + i : Nat) : Int) row).Blue.isLt
  omega

/-- Witness of C3 on the 2x9 ramp image and a tight 2x9 buffer. -/
theorem toGrayScaleSSE_16BIT_kernel_witness :
    (tightMat 2 9).rows = rampImage.TellHeight ∧ (tightMat 2 9).cols = rampImage.TellWidth ∧
    (tightMat 2 9).channels = 1 ∧ (tightMat 2 9).cols * (tightMat 2 9).channels ≤ (tightMat 2 9).step ∧
    (lanes16 CONST_RED_16_INT = List.replicate 8 (rneDiv (2125 * 256) 10000) ∧
    lanes16 CONST_GREEN_16_INT = List.replicate 8 (rneDiv (7154 * 256) 10000) ∧
    lanes16 CONST_BLUE_16_INT = List.replicate 8 (rneDiv (721 * 256) 10000) ∧
    ∃ mem', toGrayScaleSSE_16BIT rampImage (tightMat 2 9) zeroMem = some mem' ∧
      ∀ row c i, row < (tightMat 2 9).rows → c % 8 = 0 → c + 8 ≤ (tightMat 2 9).cols → i < 8 →
        (mem'.byte ((tightMat 2 9).data + row * (tightMat 2 9).step + (c + i))).val =
          (lane16 CONST_RED_16_INT i * (rampImage.GetPixel ((c + i : Nat) : Int) row).Red.val
            + lane16 CONST_GREEN_16_INT i * (rampImage.GetPixel ((c + i : Nat) : Int) row).Green.val
            + lane16 CONST_BLUE_16_INT i * (rampImage.GetPixel ((c + i : Nat) : Int) row).Blue.val)
            % 2 ^ 16 / 2 ^ 8) :=
  ⟨by decide, by decide, by decide, by decide,
    toGrayScaleSSE_16BIT_kernel rampImage (tightMat 2 9) zeroMem (by decide) (by decide)
      (by decide) (by decide)⟩

/-- C4. No 16-bit lane overflow in the fixed-point path: in every lane whose channel values
are bytes (at most 255), the products by the code's weights and their three-channel sum are
at most 65535, and the wrapping `_mm_mullo_epi16` and `_mm_add_epi16` return exactly the
unbounded products and sum. -/
theorem fixedPoint_no_overflow (red green blue : M128i) (k : Nat)
    (hR : lane16 red k ≤ 255) (hG : lane16 green k ≤ 255) (hB : lane16 blue k ≤ 255) :
    lane16 red k * lane16 CONST_RED_16_INT k ≤ 65535 ∧
    lane16 green k * lane16 CONST_GREEN_16_INT k ≤ 65535 ∧
    lane16 blue k * lane16 CONST_BLUE_16_INT k ≤ 65535 ∧
    lane16 red k * lane16 CONST_RED_16_INT k + lane16 green k * lane16 CONST_GREEN_16_INT k
      + lane16 blue k * lane16 CONST_BLUE_16_INT k ≤ 65535 ∧
    lane16 (_mm_mullo_epi16 red CONST_RED_16_INT) k = lane16 red k * lane16 CONST_RED_16_INT k ∧
    lane16 (_mm_mullo_epi16 green CONST_GREEN_16_INT) k
      = lane16 green k * lane16 CONST_GREEN_16_INT k ∧
    lane16 (_mm_mullo_epi16 blue CONST_BLUE_16_INT) k
      = lane16 blue k * lane16 CONST_BLUE_16_INT k ∧
    lane16 (_mm_add_epi16 (_mm_add_epi16 (_mm_mullo_epi16 red CONST_RED_16_INT)
        (_mm_mullo_epi16 green CONST_GREEN_16_INT)) (_mm_mullo_epi16 blue CONST_BLUE_16_INT)) k
      = lane16 red k * lane16 CONST_RED_16_INT k + lane16 green k * lane16 CONST_GREEN_16_INT k
        + lane16 blue k * lane16 CONST_BLUE_16_INT k := by
  simp only [_mm_add_epi16, _mm_mullo_epi16, lane16_ofLanes16, CONST_RED_16_INT_lane,
    CONST_GREEN_16_INT_lane, CONST_BLUE_16_INT_lane]
  generalize lane16 red k = R at hR
  generalize lane16 green k = G at hG
  generalize lane16 blue k = B at hB
  refine ⟨by omega, by omega, by omega, by omega, ?_, ?_, ?_, ?_⟩
  · exact Nat.mod_eq_of_lt (by omega)
  · exact Nat.mod_eq_of_lt (by omega)
  · exact Nat.mod_eq_of_lt (by omega)
  · have e1 : R * 54 % 2 ^ 16 = R * 54 := Nat.mod_eq_of_lt (by omega)
    have e2 : G * 183 % 2 ^ 16 = G * 183 := Nat.mod_eq_of_lt (by omega)
    have e3 : B * 18 % 2 ^ 16 = B * 18 := Nat.mod_eq_of_lt (by omega)
    have e4 : (R * 54 + G * 183) % 2 ^ 16 = R * 54 + G * 183 := Nat.mod_eq_of_lt (by omega)
    rw [e1, e2, e3, e4]
    exact Nat.mod_eq_of_lt (by omega)

/-- Witness of C4: all three channels at 255 in lane 3. -/
theorem fixedPoint_no_overflow_witness :
    lane16 (_mm_set1_epi16 255) 3 ≤ 255 ∧
    lane16 (_mm_set1_epi16 255) 3 * lane16 CONST_RED_16_INT 3
      + lane16 (_mm_set1_epi16 255) 3 * lane16 CONST_GREEN_16_INT 3
      + lane16 (_mm_set1_epi16 255) 3 * lane16 CONST_BLUE_16_INT 3 ≤ 65535 :=
  ⟨by decide,
    (fixedPoint_no_overflow (_mm_set1_epi16 255) (_mm_set1_epi16 255) (_mm_set1_epi16 255) 3
      (by decide) (by decide) (by decide)).2.2.2.1⟩

/-- C5. Reduction equivalence, fixed-point against scalar: for every image (any width and
height) and every pixel position, the byte of `toGrayScaleSSE_16BIT` and the byte of
`toGrayScale` differ in absolute value by at most 2. -/
theorem fixedPoint_vs_scalar (img : BMP) (out : MyMat) (mem1 mem2 : Mem)
    (hrows : out.rows = img.TellHeight) (hcols : out.cols = img.TellWidth)
    (hch : out.channels = 1) (hstep : out.cols * out.channels ≤ out.step) :
    ∃ m16 ms, toGrayScaleSSE_16BIT img out mem1 = some m16 ∧ toGrayScale img out mem2 = some ms ∧
      ∀ row col, row < out.rows → col < out.cols →
        Int.natAbs (((m16.byte (out.data + row * out.step + col)).val : Int)
          - ((ms.byte (out.data + row * out.step + col)).val : Int)) ≤ 2 := by
  have hr : out.rows < 2 ^ 31 := by rw [hrows]; exact img.height_int
  have hc : out.cols < 2 ^ 31 := by rw [hcols]; exact img.width_int
  have hcs : out.cols ≤ out.step := by rw [hch, Nat.mul_one] at hstep; exact hstep
  obtain ⟨m16, hm16, h16⟩ := toGrayScaleSSE_16BIT_exact img out mem1 hr hc hcs
  obtain ⟨ms, hms, hs⟩ := toGrayScale_exact img out mem2 hcs
  refine ⟨m16, ms, hm16, hms, ?_⟩
  intro row col hrow hcol
  rw [(h16 row col hrow hcol).1, (hs row col hrow hcol).1, toInt_of_lt _ (by omega),
    toInt_of_lt _ (by omega)]
  obtain ⟨t, -, -, ht, h1, h2⟩ := scalarLuma_spec (img.GetPixel col row)
  by_cases hb : col < out.cols - out.cols % 8
  · rw [if_pos hb, ht]
    have hj : col % 8 < 8 := Nat.mod_lt _ (by omega)
    have hbyte := block16_byte img row ((8 * (col / 8) : Nat) : Int) (col % 8) hj
    have e : ((8 * (col / 8) : Nat) : Int) + ((col % 8 : Nat) : Int) = (col : Int) := by
      have := Nat.div_add_mod col 8
      omega
    rw [e] at hbyte
    rw [hbyte]
    have hR := (img.GetPixel col row).Red.isLt
    have hG := (img.GetPixel col row).Green.isLt
    have hB := (img.GetPixel col row).Blue.isLt
    omega
  · rw [if_neg hb]
    simp

/-- Witness of C5 on the 2x9 ramp image and a tight 2x9 buffer. -/
theorem fixedPoint_vs_scalar_witness :
    (tightMat 2 9).rows = rampImage.TellHeight ∧ (tightMat 2 9).cols = rampImage.TellWidth ∧
    (tightMat 2 9).channels = 1 ∧ (tightMat 2 9).cols * (tightMat 2 9).channels ≤ (tightMat 2 9).step ∧
    ∃ m16 ms, toGrayScaleSSE_16BIT rampImage (tightMat 2 9) zeroMem = some m16 ∧
      toGrayScale rampImage (tightMat 2 9) zeroMem = some ms ∧
      ∀ row col, row < (tightMat 2 9).rows → col < (tightMat 2 9).cols →
        Int.natAbs (((m16.byte ((tightMat 2 9).data + row * (tightMat 2 9).step + col)).val : Int)
          - ((ms.byte ((tightMat 2 9).data + row * (tightMat 2 9).step + col)).val : Int)) ≤ 2 :=
  ⟨by decide, by decide, by decide, by decide,
    fixedPoint_vs_scalar rampImage (tightMat 2 9) zeroMem zeroMem (by decide) (by decide)
      (by decide) (by decide)⟩

/-- C6. Reduction equivalence, float vector against scalar: for every image (any width and
height), every pixel position and every width of `long` (at least 4 bytes), the byte of
`toGrayScaleSSE` and the byte of `toGrayScale` differ in absolute value by at most 1; under
binary32 arithmetic they are in fact equal. -/
theorem floatVector_vs_scalar (sizeofLong : Nat) (hL : 4 ≤ sizeofLong) (img : BMP) (out : MyMat)
    (mem1 mem2 : Mem) (hrows : out.rows = img.TellHeight) (hcols : out.cols = img.TellWidth)
    (hch : out.channels = 1) (hstep : out.cols * out.channels ≤ out.step) :
    ∃ mv ms, toGrayScaleSSE sizeofLong img out mem1 = some mv ∧
      toGrayScale img out mem2 = some ms ∧
      ∀ row col, row < out.rows → col < out.cols →
        Int.natAbs (((mv.byte (out.data + row * out.step + col)).val : Int)
          - ((ms.byte (out.data + row * out.step + col)).val : Int)) ≤ 1 ∧
        mv.byte (out.data + row * out.step + col) = ms.byte (out.data + row * out.step + col) := by
  have hr : out.rows < 2 ^ 31 := by rw [hrows]; exact img.height_int
  have hc : out.cols < 2 ^ 31 := by rw [hcols]; exact img.width_int
  have hcs : out.cols ≤ out.step := by rw [hch, Nat.mul_one] at hstep; exact hstep
  obtain ⟨mv, hmv, hv⟩ := toGrayScaleSSE_bytes sizeofLong hL img out mem1 hr hc hcs
  obtain ⟨ms, hms, hs⟩ := toGrayScale_exact img out mem2 hcs
  refine ⟨mv, ms, hmv, hms, ?_⟩
  intro row col hrow hcol
  have heq : mv.byte (out.data + row * out.step + col)
      = ms.byte (out.data + row * out.step + col) := by
    rw [hv row col hrow hcol, (hs row col hrow hcol).1, toInt_of_lt _ (by omega),
      toInt_of_lt _ (by omega)]
    by_cases hb : col < out.cols - out.cols % 4
    · rw [if_pos hb, blockSSE_byte img row _ (col % 4) (Nat.mod_lt _ (by omega))]
      have e : ((4 * (col / 4) : Nat) : Int) + ((col % 4 : Nat) : Int) = (col : Int) := by
        have := Nat.div_add_mod col 4
        omega
      rw [e]
    · rw [if_neg hb]
  rw [heq]
  simp

/-- Witness of C6 on the 2x9 ramp image, a tight 2x9 buffer and an 8-byte `long`. -/
theorem floatVector_vs_scalar_witness :
    4 ≤ 8 ∧ (tightMat 2 9).rows = rampImage.TellHeight ∧
    (tightMat 2 9).cols = rampImage.TellWidth ∧ (tightMat 2 9).channels = 1 ∧
    (tightMat 2 9).cols * (tightMat 2 9).channels ≤ (tightMat 2 9).step ∧
    ∃ mv ms, toGrayScaleSSE 8 rampImage (tightMat 2 9) zeroMem = some mv ∧
      toGrayScale rampImage (tightMat 2 9) zeroMem = some ms ∧
      ∀ row col, row < (tightMat 2 9).rows → col < (tightMat 2 9).cols →
        Int.natAbs (((mv.byte ((tightMat 2 9).data + row * (tightMat 2 9).step + col)).val : Int)
          - ((ms.byte ((tightMat 2 9).data + row * (tightMat 2 9).step + col)).val : Int)) ≤ 1 ∧
        mv.byte ((tightMat 2 9).data + row * (tightMat 2 9).step + col)
          = ms.byte ((tightMat 2 9).data + row * (tightMat 2 9).step + col) :=
  ⟨by decide, by decide, by decide, by decide, by decide,
    floatVector_vs_scalar 8 (by decide) rampImage (tightMat 2 9) zeroMem zeroMem (by decide)
      (by decide) (by decide) (by decide)⟩

/-- Remainder handling of both vector reducers when `long` has 4 bytes: the call returns,
every column of every row is written exactly once, and every tail column (from
`cols - cols % K` on, `K = 4` resp. `8`) holds the scalar byte of its pixel. -/
theorem remainder_exact_long4 (img : BMP) (out : MyMat) (mem : Mem)
    (hrows : out.rows = img.TellHeight) (hcols : out.cols = img.TellWidth)
    (hch : out.channels = 1) (hstep : out.cols * out.channels ≤ out.step) :
    (∃ m, toGrayScaleSSE 4 img out mem = some m ∧
      ∀ row col, row < out.rows → col < out.cols →
        m.writes (out.data + row * out.step + col)
          = mem.writes (out.data + row * out.step + col) + 1 ∧
        (out.cols - out.cols % 4 ≤ col →
          m.byte (out.data + row * out.step + col) = scalarLuma (img.GetPixel col row))) ∧
    (∃ m, toGrayScaleSSE_16BIT img out mem = some m ∧
      ∀ row col, row < out.rows → col < out.cols →
        m.writes (out.data + row * out.step + col)
          = mem.writes (out.data + row * out.step + col) + 1 ∧
        (out.cols - out.cols % 8 ≤ col →
          m.byte (out.data + row * out.step + col) = scalarLuma (img.GetPixel col row))) := by
  have hr : out.rows < 2 ^ 31 := by rw [hrows]; exact img.height_int
  have hc : out.cols < 2 ^ 31 := by rw [hcols]; exact img.width_int
  have hcs : out.cols ≤ out.step := by rw [hch, Nat.mul_one] at hstep; exact hstep
  obtain ⟨mv, hmv, hv⟩ := toGrayScaleSSE_exact img out mem hr hc hcs
  obtain ⟨m16, hm16, h16⟩ := toGrayScaleSSE_16BIT_exact img out mem hr hc hcs
  refine ⟨⟨mv, hmv, ?_⟩, ⟨m16, hm16, ?_⟩⟩
  · intro row col hrow hcol
    refine ⟨(hv row col hrow hcol).2, ?_⟩
    intro htail
    rw [(hv row col hrow hcol).1, if_neg (by omega)]
  · intro row col hrow hcol
    refine ⟨(h16 row col hrow hcol).2, ?_⟩
    intro htail
    rw [(h16 row col hrow hcol).1, if_neg (by omega)]

/-- C7, the code at the failing input. On a 1x5 image with an 8-byte `long`, the single
block store of `toGrayScaleSSE` covers 8 bytes: column 4 is written twice (by the block
store, then by the tail loop) and the three bytes after the 5-byte row are written too,
with the sign extension `0xFF`. Columns 0..3 are written once. -/
theorem toGrayScaleSSE_long8_overlap :
    (toGrayScaleSSE 8 rampImage5 (tightMat 1 5) zeroMem).map
        (fun m => (List.range 8).map fun i => (m.writes (64 + i), (m.byte (64 + i)).val))
      = some [(1, 71), (1, 97), (1, 122), (1, 148), (2, 174), (1, 255), (1, 255), (1, 255)] ∧
    (toGrayScale rampImage5 (tightMat 1 5) zeroMem).map
        (fun m => (List.range 8).map fun i => (m.writes (64 + i), (m.byte (64 + i)).val))
      = some [(1, 71), (1, 97), (1, 122), (1, 148), (1, 174), (0, 0), (0, 0), (0, 0)] := by
  decide

/-- C8. Concrete all-white scenario: for a 1x4 image whose four pixels have
R = G = B = 255 and A = 255, `toGrayScale`, `toGrayScaleSSE` (any width of `long` of at
least 4 bytes) and `toGrayScaleSSE_16BIT` each return and write 255 in each of the 4 output
columns. -/
theorem allWhite_row (sizeofLong : Nat) (hL : 4 ≤ sizeofLong) (img : BMP) (out : MyMat)
    (mem : Mem) (hw : img.TellWidth = 4) (hh : img.TellHeight = 1)
    (hpix : ∀ col : Nat, col < 4 → img.GetPixel col 0 = whitePixel)
    (hrows : out.rows = img.TellHeight) (hcols : out.cols = img.TellWidth)
    (hch : out.channels = 1) (hstep : out.cols * out.channels ≤ out.step) :
    (∃ m, toGrayScale img out mem = some m ∧
      ∀ col, col < 4 → (m.byte (out.data + col)).val = 255) ∧
    (∃ m, toGrayScaleSSE sizeofLong img out mem = some m ∧
      ∀ col, col < 4 → (m.byte (out.data + col)).val = 255) ∧
    (∃ m, toGrayScaleSSE_16BIT img out mem = some m ∧
      ∀ col, col < 4 → (m.byte (out.data + col)).val = 255) := by
  have hr : out.rows < 2 ^ 31 := by rw [hrows]; exact img.height_int
  have hc : out.cols < 2 ^ 31 := by rw [hcols]; exact img.width_int
  have hcs : out.cols ≤ out.step := by rw [hch, Nat.mul_one] at hstep; exact hstep
  have hwhite : (scalarLuma whitePixel).val = 255 := by decide
  have hr1 : out.rows = 1 := by rw [hrows, hh]
  have hc4 : out.cols = 4 := by rw [hcols, hw]
  obtain ⟨ms, hms, hs⟩ := toGrayScale_exact img out mem hcs
  obtain ⟨mv, hmv, hv⟩ := toGrayScaleSSE_bytes sizeofLong hL img out mem hr hc hcs
  obtain ⟨m16, hm16, h16⟩ := toGrayScaleSSE_16BIT_exact img out mem hr hc hcs
  refine ⟨⟨ms, hms, ?_⟩, ⟨mv, hmv, ?_⟩, ⟨m16, hm16, ?_⟩⟩
  · intro col hcol
    have h := (hs 0 col (by omega) (by omega)).1
    rw [Nat.zero_mul, Nat.add_zero, toInt_of_lt _ (by omega), toInt_of_lt _ (by omega)] at h
    rw [h]
    have := hpix col hcol
    simp only [Nat.cast_zero] at this ⊢
    rw [this, hwhite]
  · intro col hcol
    have h := hv 0 col (by omega) (by omega)
    rw [Nat.zero_mul, Nat.add_zero, hc4, if_pos (by omega)] at h
    rw [h, blockSSE_byte img _ _ (col % 4) (Nat.mod_lt _ (by omega))]
    have e : ((4 * (col / 4) : Nat) : Int) + ((col % 4 : Nat) : Int) = (col : Int) := by
      have := Nat.div_add_mod col 4
      omega
    have := hpix col hcol
    simp only [Nat.cast_zero] at this ⊢
    rw [e, this, hwhite]
  · intro col hcol
    have h := (h16 0 col (by omega) (by omega)).1
    rw [Nat.zero_mul, Nat.add_zero, hc4, if_neg (by omega)] at h
    rw [h]
    have := hpix col hcol
    simp only [Nat.cast_zero] at this ⊢
    rw [this, hwhite]

/-- Witness of C8: the all-white 1x4 image, a tight 1x4 buffer and an 8-byte `long`. -/
theorem allWhite_row_witness :
    4 ≤ 8 ∧ whiteImage.TellWidth = 4 ∧ whiteImage.TellHeight = 1 ∧
    (∀ col : Nat, col < 4 → whiteImage.GetPixel col 0 = whitePixel) ∧
    (tightMat 1 4).rows = whiteImage.TellHeight ∧ (tightMat 1 4).cols = whiteImage.TellWidth ∧
    (tightMat 1 4).channels = 1 ∧ (tightMat 1 4).cols * (tightMat 1 4).channels ≤ (tightMat 1 4).step ∧
    ((∃ m, toGrayScale whiteImage (tightMat 1 4) zeroMem = some m ∧
      ∀ col, col < 4 → (m.byte ((tightMat 1 4).data + col)).val = 255) ∧
    (∃ m, toGrayScaleSSE 8 whiteImage (tightMat 1 4) zeroMem = some m ∧
      ∀ col, col < 4 → (m.byte ((tightMat 1 4).data + col)).val = 255) ∧
    (∃ m, toGrayScaleSSE_16BIT whiteImage (tightMat 1 4) zeroMem = some m ∧
      ∀ col, col < 4 → (m.byte ((tightMat 1 4).data + col)).val = 255)) :=
  ⟨by decide, by decide, by decide, fun _ _ => rfl, by decide, by decide, by decide, by decide,
    allWhite_row 8 (by decide) whiteImage (tightMat 1 4) zeroMem (by decide) (by decide)
      (fun _ _ => rfl) (by decide) (by decide) (by decide) (by decide)⟩

/-- C9, the code at the failing input. Two 1x1 buffers with two channels are equal except
at (row 0, column 0, channel 1), where they differ by 5; `imgDif` scans `cols = 1` byte
per row, never reads channel 1, and returns 0 (with one channel the claim holds:
`imgDif_single_delta_1ch`). -/
theorem imgDif_misses_channel :
    (twoChannelMat 64).rows = (twoChannelMat 66).rows ∧
    (twoChannelMat 64).cols = (twoChannelMat 66).cols ∧
    (twoChannelMat 64).channels = (twoChannelMat 66).channels ∧
    twoChannelMem.byte ((twoChannelMat 64).data + 0) = twoChannelMem.byte ((twoChannelMat 66).data + 0) ∧
    (twoChannelMem.byte ((twoChannelMat 66).data + 1)).val
      = (twoChannelMem.byte ((twoChannelMat 64).data + 1)).val + 5 ∧
    imgDif twoChannelMem (twoChannelMat 64) (twoChannelMat 66) = some 0 := by
  decide

/-- Single delta on single-channel buffers: two buffers of one shape with `channels = 1`
whose bytes agree at every `(row, col)` except `(i, j)`, where they differ by `d > 0`, have
`imgDif` equal to `d`. -/
theorem imgDif_single_delta_1ch (mem : Mem) (A B : MyMat) (hr : A.rows = B.rows)
    (hc : A.cols = B.cols) (hch : A.channels = B.channels) (i j d : Nat) (hi : i < A.rows)
    (hj : j < A.cols) (hd : 0 < d)
    (heq : ∀ r c, r < A.rows → c < A.cols → ¬ (r = i ∧ c = j) →
      mem.byte (A.data + r * A.step + c) = mem.byte (B.data + r * B.step + c))
    (hdiff : (mem.byte (A.data + i * A.step + j)).val
        = (mem.byte (B.data + i * B.step + j)).val + d ∨
      (mem.byte (B.data + i * B.step + j)).val
        = (mem.byte (A.data + i * A.step + j)).val + d) :
    ∃ v, imgDif mem A B = some v ∧ v.val = d := by
  obtain ⟨v, hv, hall, hatt⟩ := imgDif_max mem A B hr hc hch
  refine ⟨v, hv, ?_⟩
  have ha := (mem.byte (A.data + i * A.step + j)).isLt
  have hb := (mem.byte (B.data + i * B.step + j)).isLt
  have hD : ((if mem.byte (B.data + i * B.step + j) < mem.byte (A.data + i * A.step + j)
          then (Fin.ofNat ((mem.byte (A.data + i * A.step + j)).val
            - (mem.byte (B.data + i * B.step + j)).val) : uchar)
          else Fin.ofNat ((mem.byte (B.data + i * B.step + j)).val
            - (mem.byte (A.data + i * A.step + j)).val)) : uchar).val = d := by
    rcases hdiff with h | h
    · rw [if_pos (by rw [Fin.lt_def]; omega)]
      show ((mem.byte (A.data + i * A.step + j)).val
        - (mem.byte (B.data + i * B.step + j)).val) % 256 = d
      omega
    · rw [if_neg (by rw [Fin.lt_def]; omega)]
      show ((mem.byte (B.data + i * B.step + j)).val
        - (mem.byte (A.data + i * A.step + j)).val) % 256 = d
      omega
  have hge := hall i j hi hj
  rw [Fin.le_def, hD] at hge
  rcases hatt with h0 | ⟨r, c, hr', hc', h⟩
  · have hv0 : v.val = 0 := by rw [h0]; rfl
    omega
  · by_cases hrc : r = i ∧ c = j
    · rw [h, hrc.1, hrc.2, hD]
    · have e := heq r c hr' hc' hrc
      rw [e, if_neg (lt_irrefl _), Nat.sub_self] at h
      have hv0 : v.val = 0 := by rw [h]; rfl
      omega

/-- The column scan of `imgDif` over one and the same row keeps the running maximum 0. -/
theorem difCols_same (mem : Mem) (cols : Nat) (c0 : DifScan) (hp : c0.ptr1 = c0.ptr2)
    (hres : c0.res = 0) :
    ∃ c', forLoop (fun (c : DifScan) => decide (c.idx < cols))
        (fun c =>
          let e1 := mem.byte c.ptr1
          let e2 := mem.byte c.ptr2
          let pixel_res : uchar :=
            if e2 < e1 then Fin.ofNat (e1.val - e2.val) else Fin.ofNat (e2.val - e1.val)
          some ⟨c.idx + 1, c.ptr1 + 1, c.ptr2 + 1, if pixel_res < c.res then c.res else pixel_res⟩)
        cols c0 = some c' ∧ c'.res = 0 := by
  obtain ⟨c', hc', ⟨-, hr⟩, -⟩ := forLoop_rule
    (fun (c : DifScan) => decide (c.idx < cols))
    (fun c =>
          let e1 := mem.byte c.ptr1
          let e2 := mem.byte c.ptr2
          let pixel_res : uchar :=
            if e2 < e1 then Fin.ofNat (e1.val - e2.val) else Fin.ofNat (e2.val - e1.val)
          some ⟨c.idx + 1, c.ptr1 + 1, c.ptr2 + 1, if pixel_res < c.res then c.res else pixel_res⟩)
    (fun c => c.ptr1 = c.ptr2 ∧ c.res = 0)
    (fun c => cols - c.idx)
    (by
      intro c ⟨hp, hr⟩ hcond
      have hlt : c.idx < cols := by simpa using hcond
      refine ⟨_, rfl, ⟨?_, ?_⟩, ?_⟩
      · show c.ptr1 + 1 = c.ptr2 + 1
        rw [hp]
      · show (if (if mem.byte c.ptr2 < mem.byte c.ptr1
            then (Fin.ofNat ((mem.byte c.ptr1).val - (mem.byte c.ptr2).val) : uchar)
            else Fin.ofNat ((mem.byte c.ptr2).val - (mem.byte c.ptr1).val)) < c.res then c.res
          else (if mem.byte c.ptr2 < mem.byte c.ptr1
            then (Fin.ofNat ((mem.byte c.ptr1).val - (mem.byte c.ptr2).val) : uchar)
            else Fin.ofNat ((mem.byte c.ptr2).val - (mem.byte c.ptr1).val))) = 0
        rw [hp, hr, if_neg (lt_irrefl _), Nat.sub_self]
        rfl
      · show cols - (c.idx + 1) < cols - c.idx
        omega)
    cols c0 ⟨hp, hres⟩ (by show cols - c0.idx ≤ cols; omega)
  exact ⟨c', hc', hr⟩

/-- C10. Difference oracle, identity: for every byte buffer `A` (any rows, cols, step and
channels, the empty buffer included) and every memory content, `imgDif(A, A)` returns 0. -/
theorem imgDif_self (mem : Mem) (A : MyMat) : imgDif mem A A = some 0 := by
  unfold imgDif
  rw [if_pos ⟨rfl, rfl, rfl⟩]
  obtain ⟨s', hs', ⟨-, hr⟩, -⟩ := forLoop_rule
    (fun (s : DifScan) => decide (s.idx < A.rows))
    (fun s =>
        (forLoop (fun (c : DifScan) => decide (c.idx < A.cols))
          (fun c =>
            let e1 := mem.byte c.ptr1
            let e2 := mem.byte c.ptr2
            let pixel_res : uchar :=
              if e2 < e1 then Fin.ofNat (e1.val - e2.val) else Fin.ofNat (e2.val - e1.val)
            some ⟨c.idx + 1, c.ptr1 + 1, c.ptr2 + 1, if pixel_res < c.res then c.res else pixel_res⟩)
          A.cols ⟨0, s.ptr1, s.ptr2, s.res⟩).map
          fun c => ⟨s.idx + 1, s.ptr1 + A.step, s.ptr2 + A.step, c.res⟩)
    (fun s => s.ptr1 = s.ptr2 ∧ s.res = 0)
    (fun s => A.rows - s.idx)
    (by
      intro s ⟨hp, hr⟩ hcond
      have hlt : s.idx < A.rows := by simpa using hcond
      obtain ⟨c', hc', hres⟩ := difCols_same mem A.cols ⟨0, s.ptr1, s.ptr2, s.res⟩ hp hr
      refine ⟨⟨s.idx + 1, s.ptr1 + A.step, s.ptr2 + A.step, c'.res⟩, ?_, ⟨?_, hres⟩, ?_⟩
      · beta_reduce
        rw [hc']
        rfl
      · show s.ptr1 + A.step = s.ptr2 + A.step
        rw [hp]
      · show A.rows - (s.idx + 1) < A.rows - s.idx
        omega)
    A.rows ⟨0, A.data, A.data, 0⟩ ⟨rfl, rfl⟩ (by show A.rows - 0 ≤ A.rows; omega)
  rw [hs']
  show some s'.res = some 0
  rw [hr]

/-- The per-element difference of `imgDif` is the absolute difference of the two bytes. -/
theorem pixelDif_val (e1 e2 : uchar) :
    ((if e2 < e1 then (Fin.ofNat (e1.val - e2.val) : uchar)
      else Fin.ofNat (e2.val - e1.val)) : uchar).val
      = Int.natAbs ((e1.val : Int) - (e2.val : Int)) := by
  have h1 := e1.isLt
  have h2 := e2.isLt
  by_cases h : e2 < e1
  · rw [if_pos h]
    rw [Fin.lt_def] at h
    show (e1.val - e2.val) % 256 = _
    omega
  · rw [if_neg h]
    rw [Fin.lt_def] at h
    show (e2.val - e1.val) % 256 = _
    omega

theorem pixelDif_comm (e1 e2 : uchar) :
    ((if e2 < e1 then (Fin.ofNat (e1.val - e2.val) : uchar)
      else Fin.ofNat (e2.val - e1.val)) : uchar)
      = (if e1 < e2 then (Fin.ofNat (e2.val - e1.val) : uchar)
        else Fin.ofNat (e1.val - e2.val)) := by
  apply Fin.ext
  rw [pixelDif_val, pixelDif_val]
  omega

/-- C11. Difference oracle, symmetry: for every pair of byte buffers `A` and `B` with
identical rows, cols and channels, `imgDif(A, B)` and `imgDif(B, A)` both return, and they
return the same value. -/
theorem imgDif_symm (mem : Mem) (A B : MyMat) (hr : A.rows = B.rows) (hc : A.cols = B.cols)
    (hch : A.channels = B.channels) :
    ∃ v, imgDif mem A B = some v ∧ imgDif mem B A = some v := by
  obtain ⟨v1, hv1, hall1, hatt1⟩ := imgDif_max mem A B hr hc hch
  obtain ⟨v2, hv2, hall2, hatt2⟩ := imgDif_max mem B A hr.symm hc.symm hch.symm
  have h12 : v1 ≤ v2 := by
    rcases hatt1 with h | ⟨r, c, hr', hc', h⟩
    · rw [h]; exact Fin.zero_le _
    · rw [h, pixelDif_comm]
      exact hall2 r c (by omega) (by omega)
  have h21 : v2 ≤ v1 := by
    rcases hatt2 with h | ⟨r, c, hr', hc', h⟩
    · rw [h]; exact Fin.zero_le _
    · rw [h, pixelDif_comm]
      exact hall1 r c (by omega) (by omega)
  have e : v1 = v2 := le_antisymm h12 h21
  exact ⟨v1, hv1, by rw [e]; exact hv2⟩

/-- Witness of C11 on two 2x2 single-channel buffers. -/
theorem imgDif_symm_witness :
    (tightMat 2 2).rows = (MyMat.mk 68 2 2 2 1).rows ∧
    (tightMat 2 2).cols = (MyMat.mk 68 2 2 2 1).cols ∧
    (tightMat 2 2).channels = (MyMat.mk 68 2 2 2 1).channels ∧
    ∃ v, imgDif difMem (tightMat 2 2) (MyMat.mk 68 2 2 2 1) = some v ∧
      imgDif difMem (MyMat.mk 68 2 2 2 1) (tightMat 2 2) = some v :=
  ⟨by decide, by decide, by decide,
    imgDif_symm difMem (tightMat 2 2) (MyMat.mk 68 2 2 2 1) (by decide) (by decide) (by decide)⟩

/-- C12. Difference oracle precondition: `imgDif` fails fast (the assertion fires, no value
is returned) if and only if the two buffers differ in rows, in cols or in channels; it
returns a value if and only if the three are identical. -/
theorem imgDif_assert (mem : Mem) (A B : MyMat) :
    (imgDif mem A B = none ↔ (A.rows ≠ B.rows ∨ A.cols ≠ B.cols ∨ A.channels ≠ B.channels)) ∧
    ((∃ v, imgDif mem A B = some v) ↔
      (A.rows = B.rows ∧ A.cols = B.cols ∧ A.channels = B.channels)) := by
  by_cases h : A.rows = B.rows ∧ A.cols = B.cols ∧ A.channels = B.channels
  · obtain ⟨v, hv, -, -⟩ := imgDif_max mem A B h.1 h.2.1 h.2.2
    constructor
    · constructor
      · intro hn
        rw [hv] at hn
        exact absurd hn (by simp)
      · intro hd
        rcases hd with hd | hd | hd
        · exact absurd h.1 hd
        · exact absurd h.2.1 hd
        · exact absurd h.2.2 hd
    · exact ⟨fun _ => h, fun _ => ⟨v, hv⟩⟩
  · have hnone : imgDif mem A B = none := by
      unfold imgDif
      rw [if_neg h]
    constructor
    · constructor
      · intro _
        by_contra hcon
        push_neg at hcon
        exact h hcon
      · intro _
        exact hnone
    · constructor
      · rintro ⟨v, hv⟩
        rw [hnone] at hv
        exact absurd hv (by simp)
      · intro hh
        exact absurd hh h

/-- C19. Difference oracle on single-channel buffers: for buffers `A` and `B` with identical
rows and cols and `channels = 1`, `imgDif(A, B)` returns a value that is an upper bound of
the absolute difference `|A[row][col] - B[row][col]|` of every element (a number in
0..255, computed without wraparound), that is 0 when the buffers have no elements, and that
is attained by some element when they are not empty: it is the maximum. -/
theorem imgDif_single_channel (mem : Mem) (A B : MyMat) (hr : A.rows = B.rows)
    (hc : A.cols = B.cols) (hA : A.channels = 1) (hB : B.channels = 1) :
    ∃ v, imgDif mem A B = some v ∧
      (∀ r c, r < A.rows → c < A.cols →
        Int.natAbs (((mem.byte (A.data + r * A.step + c)).val : Int)
          - ((mem.byte (B.data + r * B.step + c)).val : Int)) ≤ v.val ∧
        Int.natAbs (((mem.byte (A.data + r * A.step + c)).val : Int)
          - ((mem.byte (B.data + r * B.step + c)).val : Int)) ≤ 255) ∧
      (A.rows = 0 ∨ A.cols = 0 → v.val = 0) ∧
      (0 < A.rows → 0 < A.cols → ∃ r c, r < A.rows ∧ c < A.cols ∧
        v.val = Int.natAbs (((mem.byte (A.data + r * A.step + c)).val : Int)
          - ((mem.byte (B.data + r * B.step + c)).val : Int))) := by
  obtain ⟨v, hv, hall, hatt⟩ := imgDif_max mem A B hr hc (by rw [hA, hB])
  refine ⟨v, hv, ?_, ?_, ?_⟩
  · intro r c hr' hc'
    have h := hall r c hr' hc'
    rw [Fin.le_def, pixelDif_val] at h
    have hv255 := v.isLt
    exact ⟨h, by omega⟩
  · intro hz
    rcases hatt with h | ⟨r, c, hr', hc', -⟩
    · rw [h]; rfl
    · omega
  · intro hr0 hc0
    rcases hatt with h | ⟨r, c, hr', hc', h⟩
    · refine ⟨0, 0, hr0, hc0, ?_⟩
      have h0 := hall 0 0 hr0 hc0
      rw [Fin.le_def, pixelDif_val] at h0
      have hv0 : v.val = 0 := by rw [h]; rfl
      omega
    · refine ⟨r, c, hr', hc', ?_⟩
      rw [h, pixelDif_val]

/-- Witness of C19 on two 2x2 single-channel buffers. -/
theorem imgDif_single_channel_witness :
    (tightMat 2 2).rows = (MyMat.mk 68 2 2 2 1).rows ∧
    (tightMat 2 2).cols = (MyMat.mk 68 2 2 2 1).cols ∧
    (tightMat 2 2).channels = 1 ∧ (MyMat.mk 68 2 2 2 1).channels = 1 ∧
    ∃ v, imgDif difMem (tightMat 2 2) (MyMat.mk 68 2 2 2 1) = some v ∧
      (∀ r c, r < (tightMat 2 2).rows → c < (tightMat 2 2).cols →
        Int.natAbs (((difMem.byte ((tightMat 2 2).data + r * (tightMat 2 2).step + c)).val : Int)
          - ((difMem.byte ((MyMat.mk 68 2 2 2 1).data + r * (MyMat.mk 68 2 2 2 1).step + c)).val : Int))
            ≤ v.val ∧
        Int.natAbs (((difMem.byte ((tightMat 2 2).data + r * (tightMat 2 2).step + c)).val : Int)
          - ((difMem.byte ((MyMat.mk 68 2 2 2 1).data + r * (MyMat.mk 68 2 2 2 1).step + c)).val : Int))
            ≤ 255) ∧
      ((tightMat 2 2).rows = 0 ∨ (tightMat 2 2).cols = 0 → v.val = 0) ∧
      (0 < (tightMat 2 2).rows → 0 < (tightMat 2 2).cols →
        ∃ r c, r < (tightMat 2 2).rows ∧ c < (tightMat 2 2).cols ∧
        v.val = Int.natAbs
          (((difMem.byte ((tightMat 2 2).data + r * (tightMat 2 2).step + c)).val : Int)
          - ((difMem.byte ((MyMat.mk 68 2 2 2 1).data + r * (MyMat.mk 68 2 2 2 1).step + c)).val : Int))) :=
  ⟨by decide, by decide, by decide, by decide,
    imgDif_single_channel difMem (tightMat 2 2) (MyMat.mk 68 2 2 2 1) (by decide) (by decide)
      (by decide) (by decide)⟩

/-- The object left by `clear`: the storage pointer is null, the other fields are kept. -/
theorem clear_fields (m : MyMat) (heap : Heap) :
    (m.clear heap).1.data = 0 ∧ (m.clear heap).1.step = m.step ∧
    (m.data ≠ 0 → (m.clear heap).2 m.data = none) := by
  unfold MyMat.clear
  by_cases h : m.data ≠ 0
  · rw [if_pos h]
    exact ⟨rfl, rfl, fun _ => by simp⟩
  · rw [if_neg h]
    exact ⟨by simpa using h, rfl, fun h' => absurd h' h⟩

/-- An element index inside `r x c x ch` has its last byte inside `r * c * ch` elements. -/
theorem element_inside (r c ch s i j k : Nat) (hi : i < r) (hj : j < c) (hk : k < ch) :
    i * (c * ch * s) + (j * ch + k) * s + s ≤ r * c * ch * s := by
  have h1 : j * ch + k + 1 ≤ c * ch := by
    have : (j + 1) * ch ≤ c * ch := Nat.mul_le_mul_right _ hj
    have e : (j + 1) * ch = j * ch + ch := by ring
    omega
  have h2 : (j * ch + k + 1) * s ≤ c * ch * s := Nat.mul_le_mul_right _ h1
  have h3 : (i + 1) * (c * ch * s) ≤ r * (c * ch * s) := Nat.mul_le_mul_right _ hi
  have e1 : (j * ch + k + 1) * s = (j * ch + k) * s + s := by ring
  have e2 : (i + 1) * (c * ch * s) = i * (c * ch * s) + c * ch * s := by ring
  have e3 : r * (c * ch * s) = r * c * ch * s := by ring
  omega

/-- C13, counterexample. It is not true that for every `r`, `c`, `ch` a returning `Init`
leaves `step = c * ch * sizeof(T)` and storage of `r * c * ch` elements: for a fresh
`MyMat<uchar>` and `Init(1, 2^32, 2^32)` the element counts wrap to 0, `new uchar[0]`
succeeds, and `Init` returns with `step = 0` and storage of 0 elements. -/
theorem Init_shape_overflow_counterexample :
    ¬ (∀ (sizeofT : Nat) (alloc : Heap → Nat → Option Nat) (m : MyMat) (heap : Heap)
        (r c ch : Nat) (m' : MyMat) (heap' : Heap),
        0 < sizeofT → r < 2 ^ 64 → c < 2 ^ 64 → ch < 2 ^ 64 →
        MyMat.Init sizeofT alloc m heap r c ch = Except.ok (m', heap') →
          m'.step = c * ch * sizeofT ∧ heap' m'.data = some (r * c * ch)) := by
  intro h
  have h1 := h 1 grantAt64 MyMat.empty emptyHeap 1 (2 ^ 32) (2 ^ 32)
    ⟨64, 1, 2 ^ 32, 0, 2 ^ 32⟩ (fun a => if a = 64 then some 0 else emptyHeap a)
    (by decide) (by decide) (by decide) (by decide) (by rfl)
  exact absurd h1.1 (by decide)

/-- C13, amended. For every `r`, `c`, `ch` whose sizes `c * ch * sizeof(T)` and
`r * c * ch * sizeof(T)` fit in `size_t`: `Init(r, c, ch)` returns when the allocator grants
the request, and after every return (on a fresh or on a previously initialised buffer)
`rows = r`, `cols = c`, `channels = ch`, `step = c * ch * sizeof(T)` (so
`step >= cols * channels * sizeof(T)`), the storage holds `r * c * ch` elements, and every
element `(i, j, k)` at offset `i * step + (j * channels + k) * sizeof(T)` lies inside it. -/
theorem Init_shape (sizeofT : Nat) (alloc : Heap → Nat → Option Nat) (m : MyMat) (heap : Heap)
    (r c ch : Nat) (hT : 0 < sizeofT) (hrow : c * ch * sizeofT < 2 ^ 64)
    (hmat : r * c * ch * sizeofT < 2 ^ 64) :
    (∀ p, alloc (m.clear heap).2 (r * c * ch * sizeofT) = some p →
      ∃ heap', MyMat.Init sizeofT alloc m heap r c ch
        = Except.ok (⟨p, r, c, c * ch * sizeofT, ch⟩, heap')) ∧
    (∀ m' heap', MyMat.Init sizeofT alloc m heap r c ch = Except.ok (m', heap') →
      m'.rows = r ∧ m'.cols = c ∧ m'.channels = ch ∧ m'.step = c * ch * sizeofT ∧
      m'.cols * m'.channels * sizeofT ≤ m'.step ∧ heap' m'.data = some (r * c * ch) ∧
      ∀ i j k, i < r → j < c → k < ch →
        i * m'.step + (j * m'.channels + k) * sizeofT + sizeofT ≤ r * c * ch * sizeofT) := by
  have hcc : c * ch < 2 ^ 64 := by
    have : c * ch * 1 ≤ c * ch * sizeofT := Nat.mul_le_mul_left _ hT
    omega
  have hrcc : c * ch * r < 2 ^ 64 := by
    have : c * ch * r * 1 ≤ c * ch * r * sizeofT := Nat.mul_le_mul_left _ hT
    have e : c * ch * r * sizeofT = r * c * ch * sizeofT := by ring
    omega
  have e1 : c * ch % 2 ^ 64 = c * ch := Nat.mod_eq_of_lt hcc
  have e2 : c * ch * r % 2 ^ 64 = c * ch * r := Nat.mod_eq_of_lt hrcc
  have e3 : c * ch * sizeofT % 2 ^ 64 = c * ch * sizeofT := Nat.mod_eq_of_lt hrow
  have e4 : c * ch * r * sizeofT = r * c * ch * sizeofT := by ring
  have e5 : c * ch * r = r * c * ch := by ring
  constructor
  · intro p hp
    unfold MyMat.Init newArray
    simp only [e1, e2, e3, e4, if_pos hmat, hp]
    exact ⟨_, rfl⟩
  · intro m' heap' hret
    unfold MyMat.Init newArray at hret
    simp only [e1, e2, e3, e4, if_pos hmat] at hret
    cases ha : alloc (m.clear heap).2 (r * c * ch * sizeofT) with
    | none =>
      rw [ha] at hret
      exact absurd hret (by simp)
    | some p =>
      rw [ha] at hret
      simp only [Except.ok.injEq, Prod.mk.injEq] at hret
      obtain ⟨hm, hh⟩ := hret
      subst hm
      subst hh
      refine ⟨rfl, rfl, rfl, rfl, le_refl _, ?_, ?_⟩
      · simp [e5]
      · intro i j k hi hj hk
        exact element_inside r c ch sizeofT i j k hi hj hk

/-- Witness of C13, amended: `Init(2, 3, 1)` on a fresh `MyMat<uchar>`. -/
theorem Init_shape_witness :
    0 < 1 ∧ 3 * 1 * 1 < 2 ^ 64 ∧ 2 * 3 * 1 * 1 < 2 ^ 64 ∧
    MyMat.Init 1 grantAt64 MyMat.empty emptyHeap 2 3 1
      = Except.ok (⟨64, 2, 3, 3, 1⟩, fun a => if a = 64 then some 6 else emptyHeap a) ∧
    (⟨64, 2, 3, 3, 1⟩ : MyMat).step = 3 * 1 * 1 ∧
    (if 64 = 64 then some 6 else emptyHeap 64) = some (2 * 3 * 1) :=
  ⟨by decide, by decide, by decide, rfl,
    ((Init_shape 1 grantAt64 MyMat.empty emptyHeap 2 3 1 (by decide) (by decide)
      (by decide)).2 ⟨64, 2, 3, 3, 1⟩ (fun a => if a = 64 then some 6 else emptyHeap a)
      (by rfl)).2.2.2.1,
    ((Init_shape 1 grantAt64 MyMat.empty emptyHeap 2 3 1 (by decide) (by decide)
      (by decide)).2 ⟨64, 2, 3, 3, 1⟩ (fun a => if a = 64 then some 6 else emptyHeap a)
      (by rfl)).2.2.2.2.2.1⟩

/-- C14, counterexample. It is not true that a failing allocation leaves the buffer empty:
`Init(4, 5, 1)` on a `2 x 3` buffer whose allocation is declined throws and leaves null
storage with `rows = 4`, `cols = 5`, `channels = 1` and the old `step = 3`. -/
theorem Init_failure_not_empty_counterexample :
    ¬ (∀ (sizeofT : Nat) (alloc : Heap → Nat → Option Nat) (m : MyMat) (heap : Heap)
        (r c ch : Nat) (m' : MyMat) (heap' : Heap),
        0 < sizeofT → r < 2 ^ 64 → c < 2 ^ 64 → ch < 2 ^ 64 →
        MyMat.Init sizeofT alloc m heap r c ch = Except.error (m', heap') →
          m' = MyMat.empty) := by
  intro h
  have h1 := h 1 declineAll ⟨32, 2, 3, 3, 1⟩ heapWith32 4 5 1 ⟨0, 4, 5, 3, 1⟩
    (fun a => if a = 32 then none else heapWith32 a) (by decide) (by decide) (by decide)
    (by decide) (by rfl)
  exact absurd h1 (by decide)

/-- C14, amended. For every buffer state and every `r`, `c`, `ch`, if the allocation inside
`Init` fails, `Init` throws and the buffer is left with null storage (the previous storage
has been released), with `rows = r`, `cols = c`, `channels = ch` already assigned and with
`step` unchanged. -/
theorem Init_alloc_failure (sizeofT : Nat) (alloc : Heap → Nat → Option Nat) (m : MyMat)
    (heap : Heap) (r c ch : Nat)
    (hfail : newArray sizeofT alloc (m.clear heap).2 (c * ch % 2 ^ 64 * r % 2 ^ 64) = none) :
    MyMat.Init sizeofT alloc m heap r c ch
      = Except.error (⟨0, r, c, m.step, ch⟩, (m.clear heap).2) ∧
    (m.data ≠ 0 → (m.clear heap).2 m.data = none) := by
  obtain ⟨hd, hs, hrel⟩ := clear_fields m heap
  refine ⟨?_, hrel⟩
  unfold MyMat.Init
  simp only [hfail, hd, hs]

/-- Witness of C14, amended: a declined `Init(4, 5, 1)` on a `2 x 3` buffer. -/
theorem Init_alloc_failure_witness :
    newArray 1 declineAll ((MyMat.mk 32 2 3 3 1).clear heapWith32).2 (5 * 1 % 2 ^ 64 * 4 % 2 ^ 64)
      = none ∧
    MyMat.Init 1 declineAll (MyMat.mk 32 2 3 3 1) heapWith32 4 5 1
      = Except.error (⟨0, 4, 5, (MyMat.mk 32 2 3 3 1).step, 1⟩,
          ((MyMat.mk 32 2 3 3 1).clear heapWith32).2) :=
  ⟨by rfl, (Init_alloc_failure 1 declineAll (MyMat.mk 32 2 3 3 1) heapWith32 4 5 1 (by rfl)).1⟩

/-- C15, counterexample. It is not true that `Init` fails whenever the true product
`r * c * ch * sizeof(T)` does not fit in `size_t`: for `MyMat<uchar>` and
`Init(2^63, 2, 1)` the element count wraps to 0, `new uchar[0]` is granted and `Init`
returns normally. -/
theorem Init_overflow_accepted_counterexample :
    ¬ (∀ (sizeofT : Nat) (alloc : Heap → Nat → Option Nat) (m : MyMat) (heap : Heap)
        (r c ch : Nat), 0 < sizeofT → r < 2 ^ 64 → c < 2 ^ 64 → ch < 2 ^ 64 →
        2 ^ 64 ≤ r * c * ch * sizeofT →
          ∃ e, MyMat.Init sizeofT alloc m heap r c ch = Except.error e) := by
  intro h
  obtain ⟨e, he⟩ := h 1 grantAt64 MyMat.empty emptyHeap (2 ^ 63) 2 1 (by decide) (by decide)
    (by decide) (by decide) (by decide)
  have hok : MyMat.Init 1 grantAt64 MyMat.empty emptyHeap (2 ^ 63) 2 1
      = Except.ok (⟨64, 2 ^ 63, 2, 2, 1⟩, fun a => if a = 64 then some 0 else emptyHeap a) := by
    rfl
  rw [hok] at he
  exact absurd he (by simp)

/-- C15, amended. `Init` computes the element count in `size_t` arithmetic, modulo `2^64`,
and does not reject a product that overflows: when the true product `r * c * ch` does not
fit, `Init` returns normally as soon as `new` grants the wrapped count
`(c * ch mod 2^64) * r mod 2^64`, and the storage then holds that many elements, fewer
than `r * c * ch`. -/
theorem Init_overflow_wraps (sizeofT : Nat) (alloc : Heap → Nat → Option Nat) (m : MyMat)
    (heap : Heap) (r c ch p : Nat) (hover : 2 ^ 64 ≤ r * c * ch)
    (hbytes : c * ch % 2 ^ 64 * r % 2 ^ 64 * sizeofT < 2 ^ 64)
    (hgrant : alloc (m.clear heap).2 (c * ch % 2 ^ 64 * r % 2 ^ 64 * sizeofT) = some p) :
    (∃ heap', MyMat.Init sizeofT alloc m heap r c ch
        = Except.ok (⟨p, r, c, c * ch % 2 ^ 64 * sizeofT % 2 ^ 64, ch⟩, heap') ∧
      heap' p = some (c * ch % 2 ^ 64 * r % 2 ^ 64)) ∧
    c * ch % 2 ^ 64 * r % 2 ^ 64 < r * c * ch := by
  constructor
  · unfold MyMat.Init newArray
    simp only [if_pos hbytes, hgrant]
    exact ⟨_, rfl, by simp⟩
  · have : c * ch % 2 ^ 64 * r % 2 ^ 64 < 2 ^ 64 := Nat.mod_lt _ (by positivity)
    omega

/-- Witness of C15, amended: `Init(2^63, 2, 1)` on a fresh `MyMat<uchar>`. -/
theorem Init_overflow_wraps_witness :
    2 ^ 64 ≤ 2 ^ 63 * 2 * 1 ∧ 2 * 1 % 2 ^ 64 * 2 ^ 63 % 2 ^ 64 * 1 < 2 ^ 64 ∧
    grantAt64 (MyMat.empty.clear emptyHeap).2 (2 * 1 % 2 ^ 64 * 2 ^ 63 % 2 ^ 64 * 1) = some 64 ∧
    2 * 1 % 2 ^ 64 * 2 ^ 63 % 2 ^ 64 < 2 ^ 63 * 2 * 1 :=
  ⟨by decide, by decide, rfl,
    (Init_overflow_wraps 1 grantAt64 MyMat.empty emptyHeap (2 ^ 63) 2 1 64 (by decide)
      (by decide) rfl).2⟩

/-- The scalar byte depends on the Red, Green and Blue bytes only. -/
theorem scalarLuma_congr (p q : RGBApixel) (hR : p.Red = q.Red) (hG : p.Green = q.Green)
    (hB : p.Blue = q.Blue) : scalarLuma p = scalarLuma q := by
  unfold scalarLuma
  rw [hR, hG, hB]

/-- C16. Alpha is ignored: for every pair of images of equal dimensions that agree on the
Red, Green and Blue bytes of every pixel (and may differ in Alpha), each of `toGrayScale`,
`toGrayScaleSSE` (any width of `long` of at least 4 bytes) and `toGrayScaleSSE_16BIT`
returns for both images and leaves the same byte in every element of the output buffer. -/
theorem alpha_ignored (sizeofLong : Nat) (hL : 4 ≤ sizeofLong) (img1 img2 : BMP) (out : MyMat)
    (mem : Mem) (hw : img1.TellWidth = img2.TellWidth) (hh : img1.TellHeight = img2.TellHeight)
    (hrgb : ∀ col row : Nat, col < img1.TellWidth → row < img1.TellHeight →
      (img1.GetPixel col row).Red = (img2.GetPixel col row).Red ∧
      (img1.GetPixel col row).Green = (img2.GetPixel col row).Green ∧
      (img1.GetPixel col row).Blue = (img2.GetPixel col row).Blue)
    (hrows : out.rows = img1.TellHeight) (hcols : out.cols = img1.TellWidth)
    (hch : out.channels = 1) (hstep : out.cols * out.channels ≤ out.step) :
    (∃ m1 m2, toGrayScale img1 out mem = some m1 ∧ toGrayScale img2 out mem = some m2 ∧
      ∀ row col, row < out.rows → col < out.cols →
        m1.byte (out.data + row * out.step + col) = m2.byte (out.data + row * out.step + col)) ∧
    (∃ m1 m2, toGrayScaleSSE sizeofLong img1 out mem = some m1 ∧
      toGrayScaleSSE sizeofLong img2 out mem = some m2 ∧
      ∀ row col, row < out.rows → col < out.cols →
        m1.byte (out.data + row * out.step + col) = m2.byte (out.data + row * out.step + col)) ∧
    (∃ m1 m2, toGrayScaleSSE_16BIT img1 out mem = some m1 ∧
      toGrayScaleSSE_16BIT img2 out mem = some m2 ∧
      ∀ row col, row < out.rows → col < out.cols →
        m1.byte (out.data + row * out.step + col) = m2.byte (out.data + row * out.step + col)) := by
  have hr : out.rows < 2 ^ 31 := by rw [hrows]; exact img1.height_int
  have hc : out.cols < 2 ^ 31 := by rw [hcols]; exact img1.width_int
  have hcs : out.cols ≤ out.step := by rw [hch, Nat.mul_one] at hstep; exact hstep
  have hpix : ∀ row col, row < out.rows → col < out.cols →
      scalarLuma (img1.GetPixel (col : Int) (row : Int))
        = scalarLuma (img2.GetPixel (col : Int) (row : Int)) := by
    intro row col hrow hcol
    obtain ⟨h1, h2, h3⟩ := hrgb col row (by omega) (by omega)
    exact scalarLuma_congr _ _ h1 h2 h3
  refine ⟨?_, ?_, ?_⟩
  · obtain ⟨m1, hm1, h1⟩ := toGrayScale_exact img1 out mem hcs
    obtain ⟨m2, hm2, h2⟩ := toGrayScale_exact img2 out mem hcs
    refine ⟨m1, m2, hm1, hm2, ?_⟩
    intro row col hrow hcol
    rw [(h1 row col hrow hcol).1, (h2 row col hrow hcol).1, toInt_of_lt _ (by omega),
      toInt_of_lt _ (by omega)]
    exact hpix row col hrow hcol
  · obtain ⟨m1, hm1, h1⟩ := toGrayScaleSSE_bytes sizeofLong hL img1 out mem hr hc hcs
    obtain ⟨m2, hm2, h2⟩ := toGrayScaleSSE_bytes sizeofLong hL img2 out mem hr hc hcs
    refine ⟨m1, m2, hm1, hm2, ?_⟩
    intro row col hrow hcol
    rw [h1 row col hrow hcol, h2 row col hrow hcol]
    by_cases hb : col < out.cols - out.cols % 4
    · rw [if_pos hb, if_pos hb, blockSSE_byte img1 row _ (col % 4) (Nat.mod_lt _ (by omega)),
        blockSSE_byte img2 row _ (col % 4) (Nat.mod_lt _ (by omega))]
      have e : ((4 * (col / 4) : Nat) : Int) + ((col % 4 : Nat) : Int) = (col : Int) := by
        have := Nat.div_add_mod col 4
        omega
      rw [e]
      exact hpix row col hrow hcol
    · rw [if_neg hb, if_neg hb]
      exact hpix row col hrow hcol
  · obtain ⟨m1, hm1, h1⟩ := toGrayScaleSSE_16BIT_exact img1 out mem hr hc hcs
    obtain ⟨m2, hm2, h2⟩ := toGrayScaleSSE_16BIT_exact img2 out mem hr hc hcs
    refine ⟨m1, m2, hm1, hm2, ?_⟩
    intro row col hrow hcol
    rw [(h1 row col hrow hcol).1, (h2 row col hrow hcol).1]
    by_cases hb : col < out.cols - out.cols % 8
    · rw [if_pos hb, if_pos hb]
      apply Fin.ext
      rw [block16_byte img1 row _ (col % 8) (Nat.mod_lt _ (by omega)),
        block16_byte img2 row _ (col % 8) (Nat.mod_lt _ (by omega))]
      have e : ((8 * (col / 8) : Nat) : Int) + ((col % 8 : Nat) : Int) = (col : Int) := by
        have := Nat.div_add_mod col 8
        omega
      rw [e]
      obtain ⟨h1', h2', h3'⟩ := hrgb col row (by omega) (by omega)
      rw [h1', h2', h3']
    · rw [if_neg hb, if_neg hb]
      exact hpix row col hrow hcol

/-- Witness of C16: the 2x9 ramp image with two different Alpha planes, a tight 2x9 buffer
and an 8-byte `long`. -/
theorem alpha_ignored_witness :
    4 ≤ 8 ∧ rampImage.TellWidth = rampImageAlpha.TellWidth ∧
    rampImage.TellHeight = rampImageAlpha.TellHeight ∧
    (∀ col row : Nat, col < rampImage.TellWidth → row < rampImage.TellHeight →
      (rampImage.GetPixel col row).Red = (rampImageAlpha.GetPixel col row).Red ∧
      (rampImage.GetPixel col row).Green = (rampImageAlpha.GetPixel col row).Green ∧
      (rampImage.GetPixel col row).Blue = (rampImageAlpha.GetPixel col row).Blue) ∧
    (rampImage.GetPixel 1 0).Alpha ≠ (rampImageAlpha.GetPixel 1 0).Alpha ∧
    (tightMat 2 9).rows = rampImage.TellHeight ∧ (tightMat 2 9).cols = rampImage.TellWidth ∧
    (tightMat 2 9).channels = 1 ∧ (tightMat 2 9).cols * (tightMat 2 9).channels ≤ (tightMat 2 9).step ∧
    ∃ m1 m2, toGrayScaleSSE 8 rampImage (tightMat 2 9) zeroMem = some m1 ∧
      toGrayScaleSSE 8 rampImageAlpha (tightMat 2 9) zeroMem = some m2 ∧
      ∀ row col, row < (tightMat 2 9).rows → col < (tightMat 2 9).cols →
        m1.byte ((tightMat 2 9).data + row * (tightMat 2 9).step + col)
          = m2.byte ((tightMat 2 9).data + row * (tightMat 2 9).step + col) :=
  ⟨by decide, by decide, by decide, fun _ _ _ _ => ⟨rfl, rfl, rfl⟩, by decide, by decide,
    by decide, by decide, by decide,
    (alpha_ignored 8 (by decide) rampImage rampImageAlpha (tightMat 2 9) zeroMem (by decide)
      (by decide) (fun _ _ _ _ => ⟨rfl, rfl, rfl⟩) (by decide) (by decide) (by decide)
      (by decide)).2.1⟩

/-- C17, counterexample. The documented headroom of roughly 6,500 (a worst-case sum of about
59,000) does not hold, even with a tolerance of 500: with all three channels at 255 the
16-bit sum of the code is 65,025, a headroom of 510. -/
theorem headroom_counterexample :
    ¬ (∀ (red green blue : M128i) (k : Nat), lane16 red k ≤ 255 → lane16 green k ≤ 255 →
        lane16 blue k ≤ 255 →
        lane16 (_mm_add_epi16 (_mm_add_epi16 (_mm_mullo_epi16 red CONST_RED_16_INT)
          (_mm_mullo_epi16 green CONST_GREEN_16_INT)) (_mm_mullo_epi16 blue CONST_BLUE_16_INT)) k
          + 6000 ≤ 65535) := by
  intro h
  have h1 := h (_mm_set1_epi16 255) (_mm_set1_epi16 255) (_mm_set1_epi16 255) 0 (by decide)
    (by decide) (by decide)
  exact absurd h1 (by decide)

/-- C17, amended. Over all 8-bit channel inputs, the largest integer weight of the
fixed-point path is 183, every per-channel product is at most 46,665 and the three-channel
16-bit sum is at most 65,025, which leaves a headroom of 510 below 65,535; the bounds are
attained with all channels at 255. -/
theorem fixedPoint_headroom (red green blue : M128i) (k : Nat)
    (hR : lane16 red k ≤ 255) (hG : lane16 green k ≤ 255) (hB : lane16 blue k ≤ 255) :
    (lane16 CONST_RED_16_INT k ≤ 183 ∧ lane16 CONST_GREEN_16_INT k = 183 ∧
      lane16 CONST_BLUE_16_INT k ≤ 183) ∧
    (lane16 (_mm_mullo_epi16 red CONST_RED_16_INT) k ≤ 46665 ∧
      lane16 (_mm_mullo_epi16 green CONST_GREEN_16_INT) k ≤ 46665 ∧
      lane16 (_mm_mullo_epi16 blue CONST_BLUE_16_INT) k ≤ 46665) ∧
    lane16 (_mm_add_epi16 (_mm_add_epi16 (_mm_mullo_epi16 red CONST_RED_16_INT)
        (_mm_mullo_epi16 green CONST_GREEN_16_INT)) (_mm_mullo_epi16 blue CONST_BLUE_16_INT)) k
      + 510 ≤ 65535 ∧
    lane16 (_mm_mullo_epi16 (_mm_set1_epi16 255) CONST_GREEN_16_INT) k = 46665 ∧
    lane16 (_mm_add_epi16 (_mm_add_epi16 (_mm_mullo_epi16 (_mm_set1_epi16 255) CONST_RED_16_INT)
        (_mm_mullo_epi16 (_mm_set1_epi16 255) CONST_GREEN_16_INT))
        (_mm_mullo_epi16 (_mm_set1_epi16 255) CONST_BLUE_16_INT)) k = 65025 := by
  have h255 : lane16 (_mm_set1_epi16 255) k = 255 := by
    rw [_mm_set1_epi16, lane16_ofLanes16]
    rfl
  simp only [_mm_add_epi16, _mm_mullo_epi16, lane16_ofLanes16, CONST_RED_16_INT_lane,
    CONST_GREEN_16_INT_lane, CONST_BLUE_16_INT_lane, h255]
  generalize lane16 red k = R at hR
  generalize lane16 green k = G at hG
  generalize lane16 blue k = B at hB
  have e1 : R * 54 % 2 ^ 16 = R * 54 := Nat.mod_eq_of_lt (by omega)
  have e2 : G * 183 % 2 ^ 16 = G * 183 := Nat.mod_eq_of_lt (by omega)
  have e3 : B * 18 % 2 ^ 16 = B * 18 := Nat.mod_eq_of_lt (by omega)
  have e4 : (R * 54 + G * 183) % 2 ^ 16 = R * 54 + G * 183 := Nat.mod_eq_of_lt (by omega)
  have e5 : (R * 54 + G * 183 + B * 18) % 2 ^ 16 = R * 54 + G * 183 + B * 18 :=
    Nat.mod_eq_of_lt (by omega)
  rw [e1, e2, e3, e4, e5]
  refine ⟨⟨by omega, trivial, by omega⟩, ⟨by omega, by omega, by omega⟩, by omega, by decide,
    by decide⟩

/-- Witness of C17, amended: all three channels at 255 in lane 3. -/
theorem fixedPoint_headroom_witness :
    lane16 (_mm_set1_epi16 255) 3 ≤ 255 ∧
    lane16 (_mm_add_epi16 (_mm_add_epi16 (_mm_mullo_epi16 (_mm_set1_epi16 255) CONST_RED_16_INT)
        (_mm_mullo_epi16 (_mm_set1_epi16 255) CONST_GREEN_16_INT))
        (_mm_mullo_epi16 (_mm_set1_epi16 255) CONST_BLUE_16_INT)) 3 + 510 ≤ 65535 :=
  ⟨by decide,
    (fixedPoint_headroom (_mm_set1_epi16 255) (_mm_set1_epi16 255) (_mm_set1_epi16 255) 3
      (by decide) (by decide) (by decide)).2.2.1⟩

/-- C18. Float path widening to 32 bit: for every output `(BG, RA)` of `Get4Pixels16Bit`,
the registers `_mm_unpacklo_epi8(BG, 0)`, `_mm_unpackhi_epi8(BG, 0)` and
`_mm_unpacklo_epi8(RA, 0)` of `toGrayScaleSSE` have the four 32-bit lanes
`[B0, B1, B2, B3]`, `[G0, G1, G2, G3]` and `[R0, R1, R2, R3]`: the zero-extended channel
bytes in pixel order (the byte-wise unpack works because the high byte of every 16-bit lane
is zero). -/
theorem widen32_lanes (img : BMP) (r c : Int) :
    lanes32 (_mm_unpacklo_epi8 (Get4Pixels16Bit img r c).1 _mm_setzero_si128) =
      [(img.GetPixel c r).Blue.val, (img.GetPixel (c + 1) r).Blue.val,
       (img.GetPixel (c + 2) r).Blue.val, (img.GetPixel (c + 3) r).Blue.val] ∧
    lanes32 (_mm_unpackhi_epi8 (Get4Pixels16Bit img r c).1 _mm_setzero_si128) =
      [(img.GetPixel c r).Green.val, (img.GetPixel (c + 1) r).Green.val,
       (img.GetPixel (c + 2) r).Green.val, (img.GetPixel (c + 3) r).Green.val] ∧
    lanes32 (_mm_unpacklo_epi8 (Get4Pixels16Bit img r c).2 _mm_setzero_si128) =
      [(img.GetPixel c r).Red.val, (img.GetPixel (c + 1) r).Red.val,
       (img.GetPixel (c + 2) r).Red.val, (img.GetPixel (c + 3) r).Red.val] := by
  have h0 := blockSSE_channels img r c 0 (by omega)
  have h1 := blockSSE_channels img r c 1 (by omega)
  have h2 := blockSSE_channels img r c 2 (by omega)
  have h3 := blockSSE_channels img r c 3 (by omega)
  norm_num at h0 h1 h2 h3
  simp only [lanes32, List.range, List.range.loop, List.map]
  rw [h0.1, h0.2.1, h0.2.2, h1.1, h1.2.1, h1.2.2, h2.1, h2.2.1, h2.2.2, h3.1, h3.2.1, h3.2.2]
  exact ⟨rfl, rfl, rfl⟩

/-- C20. One-sided fixed-point bias: for every pixel of a fixed-point block, the block byte
`F` is `(54 R + 183 G + 18 B) div 256`, and with the exactly computed scalar result
`S = floor(0.2125 R + 0.7154 G + 0.0721 B)` it satisfies `F <= S <= F + 1`; the gap 1 is
attained: in a full block of 8 all-white pixels `toGrayScaleSSE_16BIT` writes 254 in every
column, while `S = 255` (and `toGrayScale` writes 255). -/
theorem fixedPoint_bias (img : BMP) (r c : Int) (j : Nat) (hj : j < 8) :
    ((block16 img r c) j).val =
      (54 * (img.GetPixel (c + j) r).Red.val + 183 * (img.GetPixel (c + j) r).Green.val
        + 18 * (img.GetPixel (c + j) r).Blue.val) / 256 ∧
    ((block16 img r c) j).val ≤
      (2125 * (img.GetPixel (c + j) r).Red.val + 7154 * (img.GetPixel (c + j) r).Green.val
        + 721 * (img.GetPixel (c + j) r).Blue.val) / 10000 ∧
    (2125 * (img.GetPixel (c + j) r).Red.val + 7154 * (img.GetPixel (c + j) r).Green.val
        + 721 * (img.GetPixel (c + j) r).Blue.val) / 10000 ≤ ((block16 img r c) j).val + 1 ∧
    (toGrayScaleSSE_16BIT whiteImage8 (tightMat 1 8) zeroMem).map
        (fun m => (List.range 8).map fun i => (m.byte (64 + i)).val)
      = some [254, 254, 254, 254, 254, 254, 254, 254] ∧
    (toGrayScale whiteImage8 (tightMat 1 8) zeroMem).map
        (fun m => (List.range 8).map fun i => (m.byte (64 + i)).val)
      = some [255, 255, 255, 255, 255, 255, 255, 255] ∧
    (2125 * 255 + 7154 * 255 + 721 * 255) / 10000 = 255 := by
  have hb := block16_byte img r c j hj
  have hR := (img.GetPixel (c + j) r).Red.isLt
  have hG := (img.GetPixel (c + j) r).Green.isLt
  have hB := (img.GetPixel (c + j) r).Blue.isLt
  refine ⟨hb, ?_, ?_, by decide, by decide, by decide⟩
  · rw [hb]
    omega
  · rw [hb]
    omega

/-- Witness of C20: lane 5 of the first block of the ramp image. -/
theorem fixedPoint_bias_witness :
    5 < 8 ∧
    ((block16 rampImage 0 0) 5).val ≤
      (2125 * (rampImage.GetPixel (0 + (5 : Nat)) 0).Red.val
        + 7154 * (rampImage.GetPixel (0 + (5 : Nat)) 0).Green.val
        + 721 * (rampImage.GetPixel (0 + (5 : Nat)) 0).Blue.val) / 10000 ∧
    (2125 * (rampImage.GetPixel (0 + (5 : Nat)) 0).Red.val
        + 7154 * (rampImage.GetPixel (0 + (5 : Nat)) 0).Green.val
        + 721 * (rampImage.GetPixel (0 + (5 : Nat)) 0).Blue.val) / 10000
      ≤ ((block16 rampImage 0 0) 5).val + 1 :=
  ⟨by decide, (fixedPoint_bias rampImage 0 0 5 (by decide)).2.1,
    (fixedPoint_bias rampImage 0 0 5 (by decide)).2.2.1⟩
